import Mathlib

/-!
Verification development for the eqsat-ai repository.

Part 1: the union-find of src/ds/src/uf.rs.

`UnionFind` models `struct UnionFind { vec: Vec<ClassId> }`: the vector is
represented by its length `len` together with the total function `par`
giving the entry at each index (entries at indices `≥ len` are irrelevant;
all operations stay below `len`).  `ClassId` values are modelled as `Nat`.
The mutating Rust methods become functions returning the new state.
-/

structure UnionFind where
  len : Nat
  par : Nat → Nat

namespace UnionFind

/-- Models `UnionFind::new`. -/
def new : UnionFind := ⟨0, fun i => i⟩

/-- Models `vec[id] = parent` (in-bounds write into the parent vector). -/
def setPar (uf : UnionFind) (id p : Nat) : UnionFind :=
  ⟨uf.len, fun i => if i = id then p else uf.par i⟩

/-- Models `UnionFind::makeset`: pushes a self-parent entry and returns its id. -/
def makeset (uf : UnionFind) : UnionFind × Nat :=
  (⟨uf.len + 1, fun i => if i = uf.len then uf.len else uf.par i⟩, uf.len)

/-- Models `UnionFind::new_all_not_equals`. -/
def newAllNotEquals (n : Nat) : UnionFind := ⟨n, fun i => i⟩

/-- Models `UnionFind::new_all_equals`. -/
def newAllEquals (n : Nat) : UnionFind := ⟨n, fun _ => 0⟩

/-- Models `UnionFind::num_classes`. -/
def numClasses (uf : UnionFind) : Nat := uf.len

/-- Modelled from the spec: `set_all_not_equals` is invoked by
`EGraph::corebuild` (egraph.rs) but its definition is not part of
src/ds/src/uf.rs; the spec describes it as resetting the auxiliary
union-find to "all-distinct", i.e. every entry becomes its own parent. -/
def setAllNotEquals (uf : UnionFind) : UnionFind := ⟨uf.len, fun i => i⟩

/-- The loop of `UnionFind::find`, with explicit fuel.  Each iteration does
the one-step path compression `parent[id] ← parent[parent[id]]` and then
steps to the (new) parent of `id`, exactly as the source loop. -/
def findAux : Nat → UnionFind → Nat → UnionFind × Nat
  | 0, uf, id => (uf, id)
  | fuel + 1, uf, id =>
    if uf.par id = id then (uf, id)
    else
      let uf' := uf.setPar id (uf.par (uf.par id))
      findAux fuel uf' (uf'.par id)

/-- Models `UnionFind::find`.  Fuel `id + 1` always suffices because, under
the parent-decreasing invariant, the visited id strictly decreases. -/
def find (uf : UnionFind) (id : Nat) : UnionFind × Nat :=
  findAux (id + 1) uf id

/-- The loop of `UnionFind::merge`, with explicit fuel.  Mirrors the source
loop: while the parents differ, redirect whichever of `x`, `y` has the
larger parent; if that one is a root the loop breaks after the write. -/
def mergeAux : Nat → UnionFind → Nat → Nat → UnionFind × Nat
  | 0, uf, x, _ => (uf, uf.par x)
  | fuel + 1, uf, x, y =>
    if uf.par x = uf.par y then (uf, uf.par x)
    else if uf.par y < uf.par x then
      if x = uf.par x then
        let uf' := uf.setPar x (uf.par y)
        (uf', uf'.par x)
      else
        let z := uf.par x
        let uf' := uf.setPar x (uf.par y)
        mergeAux fuel uf' z y
    else
      if y = uf.par y then
        let uf' := uf.setPar y (uf.par x)
        (uf', uf'.par x)
      else
        let z := uf.par y
        let uf' := uf.setPar y (uf.par x)
        mergeAux fuel uf' x z

/-- Models `UnionFind::merge`.  Fuel `x + y + 1` suffices since every
non-breaking iteration strictly decreases `x + y`. -/
def merge (uf : UnionFind) (x y : Nat) : UnionFind × Nat :=
  mergeAux (x + y + 1) uf x y

/-- The representation invariant maintained by every public operation:
every in-bounds parent pointer is at most its index (so parent chains
strictly decrease until a root). -/
def Inv (uf : UnionFind) : Prop :=
  ∀ i, i < uf.len → uf.par i ≤ i

/-- `Reaches uf x r`: following parent pointers from `x` ends at the root
`r` (a fixed point of `par`).  This is the purely observational notion of
representative used to specify `find` and `merge`. -/
inductive Reaches (uf : UnionFind) : Nat → Nat → Prop
  | refl (x : Nat) : uf.par x = x → Reaches uf x x
  | step (x r : Nat) : uf.par x ≠ x → Reaches uf (uf.par x) r → Reaches uf x r

/-- States reachable from `UnionFind::new` by the public API. -/
inductive Reachable : UnionFind → Prop
  | new : Reachable UnionFind.new
  | makeset {uf : UnionFind} : Reachable uf → Reachable uf.makeset.1
  | find {uf : UnionFind} {x : Nat} : Reachable uf → x < uf.len →
      Reachable (uf.find x).1
  | merge {uf : UnionFind} {x y : Nat} : Reachable uf → x < uf.len →
      y < uf.len → Reachable (uf.merge x y).1

theorem reaches_le {uf : UnionFind} (hInv : Inv uf) {x r : Nat}
    (hx : x < uf.len) (h : Reaches uf x r) : r ≤ x := by
  induction h with
  | refl z _ => exact le_refl z
  | step z r hne hr ih =>
    have hle : uf.par z ≤ z := hInv z hx
    have : uf.par z < uf.len := lt_of_le_of_lt hle hx
    exact le_trans (ih this) hle

theorem reaches_unique {uf : UnionFind} {x r₁ r₂ : Nat}
    (h₁ : Reaches uf x r₁) (h₂ : Reaches uf x r₂) : r₁ = r₂ := by
  induction h₁ with
  | refl z hz =>
    cases h₂ with
    | refl _ _ => rfl
    | step _ _ hne _ => exact absurd hz hne
  | step z r hne hr ih =>
    cases h₂ with
    | refl _ hz => exact absurd hz hne
    | step _ _ _ hr₂ => exact ih hr₂

theorem reaches_total {uf : UnionFind} (hInv : Inv uf) :
    ∀ x, x < uf.len → ∃ r, Reaches uf x r := by
  intro x
  induction x using Nat.strong_induction_on with
  | _ x ih =>
    intro hx
    by_cases hroot : uf.par x = x
    · exact ⟨x, Reaches.refl x hroot⟩
    · have hlt : uf.par x < x := lt_of_le_of_ne (hInv x hx) hroot
      obtain ⟨r, hr⟩ := ih (uf.par x) hlt (lt_trans hlt hx)
      exact ⟨r, Reaches.step x r hroot hr⟩

theorem reaches_root {uf : UnionFind} {x r : Nat} (h : Reaches uf x r) :
    uf.par r = r := by
  induction h with
  | refl _ hz => exact hz
  | step _ _ _ _ ih => exact ih

/-- A root reaches only itself. -/
theorem reaches_of_root {uf : UnionFind} {r s : Nat} (hr : uf.par r = r)
    (h : Reaches uf r s) : s = r := by
  cases h with
  | refl _ _ => rfl
  | step _ _ hne _ => exact absurd hr hne

/-- Inversion: a non-root node reaches whatever its parent reaches. -/
theorem reaches_step_inv {uf : UnionFind} {x r : Nat} (h : Reaches uf x r)
    (hne : uf.par x ≠ x) : Reaches uf (uf.par x) r := by
  cases h with
  | refl _ hx => exact absurd hx hne
  | step _ _ _ hp => exact hp

end UnionFind

namespace UnionFind

theorem setPar_par (uf : UnionFind) (id p i : Nat) :
    (uf.setPar id p).par i = if i = id then p else uf.par i := rfl

theorem setPar_len (uf : UnionFind) (id p : Nat) :
    (uf.setPar id p).len = uf.len := rfl

/-- A root different from the rewritten index stays a root after `setPar`. -/
theorem root_setPar {uf : UnionFind} {id p r : Nat} (hne : r ≠ id)
    (hr : uf.par r = r) : (uf.setPar id p).par r = r := by
  simp [setPar_par, hne, hr]

/-- One step of path compression preserves the invariant. -/
theorem compress_inv {uf : UnionFind} {id : Nat} (hInv : Inv uf)
    (hid : id < uf.len) :
    Inv (uf.setPar id (uf.par (uf.par id))) := by
  intro i hi
  rw [setPar_par]
  by_cases h : i = id
  · subst h
    simp only [if_pos rfl]
    have h₁ : uf.par i ≤ i := hInv i hi
    have h₂ : uf.par (uf.par i) ≤ uf.par i :=
      hInv (uf.par i) (lt_of_le_of_lt h₁ hi)
    exact le_trans h₂ h₁
  · simp only [if_neg h]
    exact hInv i hi

/-- One step of path compression redirects `id` to a node on its own chain,
so every node still reaches the same root. -/
theorem compress_reaches {uf : UnionFind} {id : Nat} (hInv : Inv uf)
    (hid : id < uf.len) (hne : uf.par id ≠ id) :
    ∀ z, z < uf.len → ∀ r, Reaches uf z r →
      Reaches (uf.setPar id (uf.par (uf.par id))) z r := by
  intro z
  induction z using Nat.strong_induction_on with
  | _ z ih =>
    intro hz r hreach
    have hself : (uf.setPar id (uf.par (uf.par id))).par id
        = uf.par (uf.par id) := by
      rw [setPar_par, if_pos rfl]
    by_cases hzid : z = id
    · subst hzid
      have hp : Reaches uf (uf.par z) r := reaches_step_inv hreach hne
      have hple : uf.par z ≤ z := hInv z hz
      have hplt : uf.par z < z := lt_of_le_of_ne hple hne
      by_cases hproot : uf.par (uf.par z) = uf.par z
      · -- the parent is a root, compression rewrites to that same root
        have hrp : r = uf.par z := reaches_of_root hproot hp
        refine Reaches.step z r ?_ ?_
        · rw [hself, hproot]
          exact hne
        · rw [hself, hproot, ← hrp]
          refine Reaches.refl r ?_
          rw [setPar_par, if_neg (by omega), hrp, hproot]
      · -- the grandparent is strictly below the parent
        have hq : Reaches uf (uf.par (uf.par z)) r := reaches_step_inv hp hproot
        have hqle : uf.par (uf.par z) ≤ uf.par z :=
          hInv (uf.par z) (lt_trans hplt hz)
        have hqltz : uf.par (uf.par z) < z := lt_of_le_of_lt hqle hplt
        have hq' := ih (uf.par (uf.par z)) hqltz (lt_trans hqltz hz) r hq
        refine Reaches.step z r ?_ ?_
        · rw [hself]
          omega
        · rw [hself]
          exact hq'
    · have hzpar : (uf.setPar id (uf.par (uf.par id))).par z = uf.par z := by
        rw [setPar_par, if_neg hzid]
      by_cases hzroot : uf.par z = z
      · have hrz : r = z := reaches_of_root hzroot hreach
        rw [hrz]
        exact Reaches.refl z (by rw [hzpar]; exact hzroot)
      · have hp : Reaches uf (uf.par z) r := reaches_step_inv hreach hzroot
        have hple : uf.par z ≤ z := hInv z hz
        have hplt : uf.par z < z := lt_of_le_of_ne hple hzroot
        have hp' := ih (uf.par z) hplt (lt_trans hplt hz) r hp
        refine Reaches.step z r ?_ ?_
        · rw [hzpar]
          exact hzroot
        · rw [hzpar]
          exact hp'

/-- Full specification of the `find` loop: given the fuel bound, it returns
the root of its argument, preserves the invariant and the length, and every
node keeps its root (path compression does not change the partition). -/
theorem findAux_spec : ∀ (fuel : Nat) (uf : UnionFind) (id r₀ : Nat),
    Inv uf → id < uf.len → id < fuel → Reaches uf id r₀ →
    (findAux fuel uf id).2 = r₀ ∧ Inv (findAux fuel uf id).1 ∧
      (findAux fuel uf id).1.len = uf.len ∧
      (∀ z, z < uf.len → ∀ r, Reaches uf z r →
        Reaches (findAux fuel uf id).1 z r) := by
  intro fuel
  induction fuel with
  | zero => intro uf id r₀ _ _ h; omega
  | succ fuel ih =>
    intro uf id r₀ hInv hid hfuel hreach
    by_cases hroot : uf.par id = id
    · have hr₀ : r₀ = id := reaches_of_root hroot hreach
      have hfa : findAux (fuel + 1) uf id = (uf, id) := by
        simp only [findAux, if_pos hroot]
      rw [hfa, hr₀]
      exact ⟨rfl, hInv, rfl, fun z _ r h => h⟩
    · have hple : uf.par id ≤ id := hInv id hid
      have hplt : uf.par id < id := lt_of_le_of_ne hple hroot
      set uf' := uf.setPar id (uf.par (uf.par id)) with huf'
      have hInv' : Inv uf' := compress_inv hInv hid
      have hpres : ∀ z, z < uf.len → ∀ r, Reaches uf z r → Reaches uf' z r :=
        compress_reaches hInv hid hroot
      have hlen' : uf'.len = uf.len := rfl
      have hid' : uf'.par id = uf.par (uf.par id) := by
        rw [huf', setPar_par, if_pos rfl]
      have hqle : uf.par (uf.par id) ≤ uf.par id :=
        hInv (uf.par id) (lt_trans hplt hid)
      have hqlt : uf.par (uf.par id) < id := lt_of_le_of_lt hqle hplt
      have hp : Reaches uf (uf.par id) r₀ := reaches_step_inv hreach hroot
      have hreach' : Reaches uf' (uf'.par id) r₀ := by
        rw [hid']
        by_cases hproot : uf.par (uf.par id) = uf.par id
        · have hr₀ : r₀ = uf.par id := reaches_of_root hproot hp
          rw [hproot, hr₀]
          exact hpres (uf.par id) (lt_of_le_of_lt hple hid) (uf.par id)
            (Reaches.refl (uf.par id) hproot)
        · exact hpres (uf.par (uf.par id))
            (lt_of_lt_of_le hqlt (le_of_lt hid)) r₀ (reaches_step_inv hp hproot)
      have hrec := ih uf' (uf'.par id) r₀ hInv'
        (by rw [hid', hlen']; exact lt_of_lt_of_le hqlt (le_of_lt hid))
        (by rw [hid']; omega) hreach'
      have hstep : findAux (fuel + 1) uf id = findAux fuel uf' (uf'.par id) := by
        simp only [findAux, if_neg hroot]
      rw [hstep]
      refine ⟨hrec.1, hrec.2.1, by rw [hrec.2.2.1, hlen'], ?_⟩
      intro z hz r h
      exact hrec.2.2.2 z (by rw [hlen']; exact hz) r (hpres z hz r h)

/-- Top-level `find` specification. -/
theorem find_spec {uf : UnionFind} {id r₀ : Nat} (hInv : Inv uf)
    (hid : id < uf.len) (hreach : Reaches uf id r₀) :
    (uf.find id).2 = r₀ ∧ Inv (uf.find id).1 ∧ (uf.find id).1.len = uf.len ∧
      (∀ z, z < uf.len → ∀ r, Reaches uf z r → Reaches (uf.find id).1 z r) :=
  findAux_spec (id + 1) uf id r₀ hInv hid (Nat.lt_succ_self id) hreach

/-- Under the invariant, a node that reaches itself is literally a root. -/
theorem root_fixed {uf : UnionFind} (hInv : Inv uf) {c : Nat}
    (hc : c < uf.len) (h : Reaches uf c c) : uf.par c = c := by
  cases h with
  | refl _ h => exact h
  | step _ _ hne hp =>
    have h₁ : uf.par c ≤ c := hInv c hc
    have h₂ : c ≤ uf.par c := reaches_le hInv (lt_of_le_of_lt h₁ hc) hp
    omega

end UnionFind

namespace UnionFind

theorem makeset_inv {uf : UnionFind} (hInv : Inv uf) : Inv uf.makeset.1 := by
  intro i hi
  simp only [makeset] at hi ⊢
  by_cases h : i = uf.len
  · simp [h]
  · rw [if_neg h]
    exact hInv i (by omega)

theorem makeset_len (uf : UnionFind) : uf.makeset.1.len = uf.len + 1 := rfl

/-- The merge loop preserves the invariant and the length. -/
theorem mergeAux_inv : ∀ (fuel : Nat) (uf : UnionFind) (x y : Nat),
    Inv uf → x < uf.len → y < uf.len →
    Inv (mergeAux fuel uf x y).1 ∧ (mergeAux fuel uf x y).1.len = uf.len := by
  intro fuel
  induction fuel with
  | zero => intro uf x y hInv _ _; exact ⟨hInv, rfl⟩
  | succ fuel ih =>
    intro uf x y hInv hx hy
    by_cases heq : uf.par x = uf.par y
    · have hstep : mergeAux (fuel + 1) uf x y = (uf, uf.par x) := by
        unfold mergeAux
        rw [if_pos heq]
      rw [hstep]
      exact ⟨hInv, rfl⟩
    · simp only [mergeAux, if_neg heq]
      by_cases hgt : uf.par y < uf.par x
      · rw [if_pos hgt]
        have hInv' : Inv (uf.setPar x (uf.par y)) := by
          intro i hi
          rw [setPar_par]
          by_cases hix : i = x
          · subst hix
            rw [if_pos rfl]
            exact le_trans (le_of_lt hgt) (hInv i hi)
          · rw [if_neg hix]
            exact hInv i hi
        by_cases hxr : x = uf.par x
        · rw [if_pos hxr]
          exact ⟨hInv', rfl⟩
        · rw [if_neg hxr]
          exact ih (uf.setPar x (uf.par y)) (uf.par x) y hInv'
            (lt_of_le_of_lt (hInv x hx) hx) hy
      · rw [if_neg hgt]
        have hlt : uf.par x < uf.par y := by
          omega
        have hInv' : Inv (uf.setPar y (uf.par x)) := by
          intro i hi
          rw [setPar_par]
          by_cases hiy : i = y
          · subst hiy
            rw [if_pos rfl]
            exact le_trans (le_of_lt hlt) (hInv i hi)
          · rw [if_neg hiy]
            exact hInv i hi
        by_cases hyr : y = uf.par y
        · rw [if_pos hyr]
          exact ⟨hInv', rfl⟩
        · rw [if_neg hyr]
          exact ih (uf.setPar y (uf.par x)) x (uf.par y) hInv'
            hx (lt_of_le_of_lt (hInv y hy) hy)

theorem merge_inv {uf : UnionFind} {x y : Nat} (hInv : Inv uf)
    (hx : x < uf.len) (hy : y < uf.len) :
    Inv (uf.merge x y).1 ∧ (uf.merge x y).1.len = uf.len :=
  mergeAux_inv (x + y + 1) uf x y hInv hx hy

/-- Every state built by the public API satisfies the invariant. -/
theorem reachable_inv {uf : UnionFind} (h : Reachable uf) : Inv uf := by
  induction h with
  | new => intro i hi; exact absurd hi (by simp [UnionFind.new])
  | makeset _ ih => exact makeset_inv ih
  | @find uf x hr hx ih =>
    obtain ⟨r, hreach⟩ := reaches_total ih x hx
    exact (find_spec ih hx hreach).2.1
  | @merge uf x y hr hx hy ih => exact (merge_inv ih hx hy).1

theorem reachable_find_len {uf : UnionFind} (hInv : Inv uf) {x : Nat}
    (hx : x < uf.len) : (uf.find x).1.len = uf.len := by
  obtain ⟨r, hreach⟩ := reaches_total hInv x hx
  exact (find_spec hInv hx hreach).2.2.1

/-- `merge` on two root ids links the larger to the smaller and returns the
smaller, directly from one unfolding of the loop. -/
theorem merge_of_roots {uf : UnionFind} {a b : Nat}
    (ha : uf.par a = a) (hb : uf.par b = b) :
    (uf.merge a b).2 = min a b := by
  unfold merge
  by_cases hab : a = b
  · subst hab
    have hstep : mergeAux (a + a + 1) uf a a = (uf, uf.par a) := by
      unfold mergeAux
      rw [if_pos rfl]
    rw [hstep, ha]
    omega
  · have hne : uf.par a ≠ uf.par b := by rw [ha, hb]; exact hab
    by_cases hlt : b < a
    · have hgt : uf.par b < uf.par a := by rw [ha, hb]; exact hlt
      simp only [mergeAux, if_neg hne, if_pos hgt, if_pos ha.symm]
      rw [setPar_par, if_pos rfl, hb]
      omega
    · have hgt : ¬ uf.par b < uf.par a := by rw [ha, hb]; exact hlt
      simp only [mergeAux, if_neg hne, if_neg hgt, if_pos hb.symm]
      rw [setPar_par, if_neg (by omega), ha]
      omega

end UnionFind

/-- The union-find state obtained by five fresh makesets; ids 0..4 are all
singleton roots. -/
def ufFive : UnionFind :=
  (((((UnionFind.new.makeset.1).makeset.1).makeset.1).makeset.1).makeset.1)

/-- After `merge 3 1`, `merge 1 0`, `merge 4 3`, nodes 3 and 4 both have the
non-root node 1 as parent (1 itself points at the root 0). -/
def ufShared : UnionFind :=
  ((((ufFive.merge 3 1).1).merge 1 0).1.merge 4 3).1

theorem ufFive_reachable : UnionFind.Reachable ufFive :=
  .makeset (.makeset (.makeset (.makeset (.makeset .new))))

theorem ufShared_reachable : UnionFind.Reachable ufShared :=
  .merge (.merge (.merge ufFive_reachable (by decide) (by decide))
    (by decide) (by decide)) (by decide) (by decide)

/-- C2 counterexample: in the reachable state `ufShared` (built only from
makeset and merge), ids 3 and 4 are distinct children of the non-root node
1, so `merge(3,4)` exits immediately with common parent 1, while both
`find(3)` and `find(4)` return the class minimum 0. -/
theorem uf_merge_not_min_counterexample :
    UnionFind.Reachable ufShared ∧
      (ufShared.merge 3 4).2 ≠ min (ufShared.find 3).2 (ufShared.find 4).2 := by
  refine ⟨ufShared_reachable, ?_⟩
  decide

/-- C2 (amended): for every union-find built from any sequence of
makeset, find and merge operations, `find(x) ≤ x` for every live id `x`,
and `merge(a, b)` applied to two canonical (root) ids returns
`min(a, b)` — the numerically smallest member of the combined class.
(As stated for arbitrary live ids the merge clause is false: `merge` can
return a non-root common parent, see the counterexample.) -/
theorem uf_find_le_and_merge_min_of_roots {uf : UnionFind}
    (h : UnionFind.Reachable uf) :
    (∀ x, x < uf.len → (uf.find x).2 ≤ x) ∧
    (∀ a b, uf.par a = a → uf.par b = b → (uf.merge a b).2 = min a b) := by
  have hInv := UnionFind.reachable_inv h
  constructor
  · intro x hx
    obtain ⟨r, hreach⟩ := UnionFind.reaches_total hInv x hx
    rw [(UnionFind.find_spec hInv hx hreach).1]
    exact UnionFind.reaches_le hInv hx hreach
  · intro a b ha hb
    exact UnionFind.merge_of_roots ha hb

theorem uf_find_le_and_merge_min_of_roots_witness :
    (ufFive.find 3).2 ≤ 3 ∧ (ufFive.merge 3 1).2 = min 3 1 :=
  ⟨(uf_find_le_and_merge_min_of_roots ufFive_reachable).1 3 (by decide),
   (uf_find_le_and_merge_min_of_roots ufFive_reachable).2 3 1
     (by decide) (by decide)⟩

/-- C10: `find` is idempotent and side-effect-free with respect to the
partition: in any reachable state, re-finding the returned representative
(in the state updated by path compression) yields the same representative,
and running `find(y)` first never changes the value of `find(x)`. -/
theorem uf_find_idempotent_and_preserves {uf : UnionFind}
    (h : UnionFind.Reachable uf) (x y : Nat) (hx : x < uf.len)
    (hy : y < uf.len) :
    ((uf.find x).1.find (uf.find x).2).2 = (uf.find x).2 ∧
    ((uf.find y).1.find x).2 = (uf.find x).2 := by
  have hInv := UnionFind.reachable_inv h
  constructor
  · obtain ⟨r, hreach⟩ := UnionFind.reaches_total hInv x hx
    obtain ⟨hval, hInv₁, hlen₁, hpres⟩ := UnionFind.find_spec hInv hx hreach
    rw [hval]
    have hroot : uf.par r = r := UnionFind.reaches_root hreach
    have hrlen : r < (uf.find x).1.len := by
      rw [hlen₁]
      exact lt_of_le_of_lt (UnionFind.reaches_le hInv hx hreach) hx
    have hrr : UnionFind.Reaches (uf.find x).1 r r :=
      hpres r (by rw [hlen₁] at hrlen; exact hrlen) r (.refl r hroot)
    exact (UnionFind.find_spec hInv₁ hrlen hrr).1
  · obtain ⟨rx, hreachx⟩ := UnionFind.reaches_total hInv x hx
    obtain ⟨ry, hreachy⟩ := UnionFind.reaches_total hInv y hy
    obtain ⟨hvaly, hInv₁, hlen₁, hpresy⟩ := UnionFind.find_spec hInv hy hreachy
    have hreachx₁ : UnionFind.Reaches (uf.find y).1 x rx := hpresy x hx rx hreachx
    have hx₁ : x < (uf.find y).1.len := by rw [hlen₁]; exact hx
    rw [(UnionFind.find_spec hInv₁ hx₁ hreachx₁).1,
      (UnionFind.find_spec hInv hx hreachx).1]

theorem uf_find_idempotent_and_preserves_witness :
    ((ufShared.find 3).1.find (ufShared.find 3).2).2 = (ufShared.find 3).2 ∧
    ((ufShared.find 4).1.find 3).2 = (ufShared.find 3).2 :=
  uf_find_idempotent_and_preserves ufShared_reachable 3 4
    (by decide) (by decide)

/-!
Part 2: the abstract-domain lattices of src/ai/src/interval.rs and
src/ai/src/concrete.rs, together with the `i32` arithmetic they use.
`i32` values are modelled as `Int` with explicit range checks.
-/

def i32Min : Int := -2147483648

def i32Max : Int := 2147483647

/-- Models Rust `i32::checked_add`. -/
def checkedAdd (a b : Int) : Option Int :=
  if i32Min ≤ a + b ∧ a + b ≤ i32Max then some (a + b) else none

/-- Models Rust `i32::checked_div`: `none` on division by zero and on the
overflowing case `i32::MIN / -1`; otherwise division truncating toward
zero.  The same partial function also models the plain `/` operator on
`i32`, whose `none` cases are panics. -/
def i32CheckedDiv (a b : Int) : Option Int :=
  if b = 0 ∨ (a = i32Min ∧ b = -1) then none else some (Int.tdiv a b)

/-- Models Rust `i32::checked_rem` (and the panicking `%`). -/
def i32CheckedRem (a b : Int) : Option Int :=
  if b = 0 ∨ (a = i32Min ∧ b = -1) then none else some (Int.tmod a b)

/-- Models Rust `i32::wrapping_add` / `wrapping_sub` / `wrapping_mul`
reduction into the `i32` range. -/
def wrapI32 (n : Int) : Int := (n + 2147483648) % 4294967296 - 2147483648

namespace ai

/-- Models `struct Interval { low: i32, high: i32 }` from interval.rs.
(The `ai` namespace mirrors the crate name and avoids the clash with
the unrelated Mathlib `Interval`.) -/
structure Interval where
  low : Int
  high : Int
deriving DecidableEq

namespace Interval

/-- Models `<Interval as Lattice>::top` (the empty range). -/
def top : Interval := ⟨i32Max, i32Min⟩

/-- Models `<Interval as Lattice>::bottom` (the full range). -/
def bottom : Interval := ⟨i32Min, i32Max⟩

/-- Models `<Interval as Lattice>::join` (interval hull). -/
def join (a b : Interval) : Interval := ⟨min a.low b.low, max a.high b.high⟩

/-- Models `<Interval as Lattice>::meet`. -/
def meet (a b : Interval) : Interval :=
  let met : Interval := ⟨max a.low b.low, min a.high b.high⟩
  if met.high < met.low then top else met

/-- Models `<Interval as Lattice>::widen`. -/
def widen (a b : Interval) : Interval :=
  ⟨if a.low ≤ b.low then a.low else i32Min,
   if b.high ≤ a.high then a.high else i32Max⟩

/-- Models the `Add` arm of the interval `forward_transfer`. -/
def addTransfer (l r : Interval) : Interval :=
  match checkedAdd l.low r.low, checkedAdd l.high r.high with
  | some lo, some hi => ⟨lo, hi⟩
  | _, _ => bottom

/-- Models the `Divide` arm of the interval `forward_transfer`; the source
uses the panicking `/` operator on the four corner quotients (substituting
`1` / `-1` for zero divisor endpoints), so a `none` result models a
division-overflow panic. -/
def divTransfer (l r : Interval) : Option Interval := do
  let a ← i32CheckedDiv l.low (if r.low ≠ 0 then r.low else 1)
  let b ← i32CheckedDiv l.low (if r.high ≠ 0 then r.high else -1)
  let c ← i32CheckedDiv l.high (if r.low ≠ 0 then r.low else 1)
  let d ← i32CheckedDiv l.high (if r.high ≠ 0 then r.high else -1)
  some ⟨min (min (min a b) c) d, max (max (max a b) c) d⟩

/-- Models `Interval::is_known_true`. -/
def isKnownTrue (a : Interval) : Bool :=
  decide (1 ≤ a.low) || decide (a.high ≤ -1)

/-- Models `Interval::is_known_false`. -/
def isKnownFalse (a : Interval) : Bool :=
  decide (a = ⟨0, 0⟩) || decide (a = top)

end Interval

/-- Models `enum Concrete { Bottom, Value(i32), Top }` from concrete.rs. -/
inductive Concrete where
  | Bottom : Concrete
  | Value : Int → Concrete
  | Top : Concrete
deriving DecidableEq

namespace Concrete

/-- Models `<Concrete as Lattice>::top`. -/
def top : Concrete := .Top

/-- Models `<Concrete as Lattice>::bottom`. -/
def bottom : Concrete := .Bottom

/-- Models `<Concrete as Lattice>::join`. -/
def join : Concrete → Concrete → Concrete
  | .Top, other => other
  | other, .Top => other
  | a, b => if a = b then a else .Bottom

/-- Models `<Concrete as Lattice>::meet`. -/
def meet : Concrete → Concrete → Concrete
  | .Bottom, other => other
  | other, .Bottom => other
  | a, b => if a = b then a else .Top

/-- Models `<Concrete as Lattice>::widen`. -/
def widen (_ b : Concrete) : Concrete := b

/-- Models the binary-operator evaluation wrapper in the `Concrete`
`forward_transfer`: any Top or Bottom operand gives Top, and a `None`
from the checked arithmetic gives Top. -/
def evalBin (f : Int → Int → Option Int) : Concrete → Concrete → Concrete
  | .Top, _ => .Top
  | _, .Top => .Top
  | .Bottom, _ => .Top
  | _, .Bottom => .Top
  | .Value a, .Value b =>
    match f a b with
    | some v => .Value v
    | none => .Top

/-- Models `Concrete::is_known_true`. -/
def isKnownTrue : Concrete → Bool
  | .Top => true
  | .Value v => decide (v ≠ 0)
  | .Bottom => false

/-- Models `Concrete::is_known_false`. -/
def isKnownFalse : Concrete → Bool
  | .Top => true
  | .Value v => decide (v = 0)
  | .Bottom => false

theorem join_top_left (x : Concrete) : join .Top x = x := by
  cases x <;> rfl

theorem join_top_right (x : Concrete) : join x .Top = x := by
  cases x <;> rfl

theorem join_bottom_left (x : Concrete) : join .Bottom x = .Bottom := by
  cases x <;> simp [join]

theorem join_bottom_right (x : Concrete) : join x .Bottom = .Bottom := by
  cases x <;> simp [join]

theorem join_value_value (n m : Int) :
    join (.Value n) (.Value m) = if n = m then .Value n else .Bottom := by
  by_cases h : n = m <;> simp [join, h]

end Concrete

end ai

/-!
Part 3: the lattice-map domain of src/ai/src/domain.rs and the map
intersection of src/ai/src/lib.rs.  A `BTreeMap` is modelled as a list of
key-value pairs kept sorted by strictly ascending key; `Symbol` and
`ClassId` keys are modelled as `Nat`.
-/

namespace ai

/-- Models `BTreeMap::insert` on the sorted pair-list representation. -/
def mapInsert {V : Type} (k : Nat) (v : V) : List (Nat × V) → List (Nat × V)
  | [] => [(k, v)]
  | (k', v') :: rest =>
    if k < k' then (k, v) :: (k', v') :: rest
    else if k = k' then (k, v) :: rest
    else (k', v') :: mapInsert k v rest

/-- Models `BTreeMap::get` on the sorted pair-list representation. -/
def mapFind? {V : Type} (m : List (Nat × V)) (k : Nat) : Option V :=
  (m.find? (fun p => p.1 = k)).map (fun p => p.2)

/-- Strictly ascending keys: the representation invariant of the
`BTreeMap` model. -/
def SortedKeys {V : Type} (m : List (Nat × V)) : Prop :=
  m.Pairwise (fun p q => p.1 < q.1)

/-- The double iterator walk of `intersect_btree_maps`, with explicit
fuel (each step consumes at least one element of one side, so the
combined length is always enough fuel). -/
def intersectMapsF {V1 V2 : Type} :
    Nat → List (Nat × V1) → List (Nat × V2) → List (Nat × V1 × V2)
  | 0, _, _ => []
  | _ + 1, [], _ => []
  | _ + 1, _, [] => []
  | fuel + 1, (k1, v1) :: la, (k2, v2) :: lb =>
    if k1 < k2 then intersectMapsF fuel la ((k2, v2) :: lb)
    else if k2 < k1 then intersectMapsF fuel ((k1, v1) :: la) lb
    else (k1, v1, v2) :: intersectMapsF fuel la lb

/-- Models `intersect_btree_maps` from src/ai/src/lib.rs: advance
whichever side has the smaller key and yield the common keys with both
values. -/
def intersectMaps {V1 V2 : Type} (a : List (Nat × V1))
    (b : List (Nat × V2)) : List (Nat × V1 × V2) :=
  intersectMapsF (a.length + b.length) a b

/-- Models `LatticeDomain { var_to_val, .. }`: the per-variable abstract
state (the shared `finished` sink is threaded separately by the
interpreter model). -/
structure LatticeDomain (V : Type) where
  varToVal : List (Nat × V)
deriving DecidableEq

namespace LatticeDomain

/-- Models `LatticeDomain::lookup`: the bound value, or `Value::top()`
for an unbound variable. -/
def lookup {V : Type} (top : V) (d : LatticeDomain V) (k : Nat) : V :=
  (mapFind? d.varToVal k).getD top

/-- Models `LatticeDomain::assign`. -/
def assign {V : Type} (d : LatticeDomain V) (k : Nat) (v : V) :
    LatticeDomain V :=
  ⟨mapInsert k v d.varToVal⟩

/-- Models `LatticeDomain::join`: pointwise join over the key
intersection. -/
def join {V : Type} (joinV : V → V → V) (a b : LatticeDomain V) :
    LatticeDomain V :=
  ⟨(intersectMaps a.varToVal b.varToVal).map
    (fun p => (p.1, joinV p.2.1 p.2.2))⟩

/-- Models `LatticeDomain::widen`: pointwise widen over the key
intersection. -/
def widen {V : Type} (widenV : V → V → V) (a b : LatticeDomain V) :
    LatticeDomain V :=
  ⟨(intersectMaps a.varToVal b.varToVal).map
    (fun p => (p.1, widenV p.2.1 p.2.2))⟩

/-- Models `LatticeDomain::branch`: the `is_known_false` probe is checked
first, then `is_known_true`, otherwise both clones survive.  The probes
are the trait methods of the value type, passed as parameters. -/
def branch {V : Type} (isTrue isFalse : V → Bool) (d : LatticeDomain V)
    (cond : V) : Option (LatticeDomain V) × Option (LatticeDomain V) :=
  if isFalse cond then (none, some d)
  else if isTrue cond then (some d, none)
  else (some d, some d)

end LatticeDomain

end ai

/-- C5 counterexample: `bottom()` is not neutral for `join` in either
implemented lattice: for the interval domain `bottom` is the full range
`[i32::MIN, i32::MAX]`, so `bottom.join([0,0])` is `bottom`, not `[0,0]`;
for the constant domain `Bottom.join(Value 1)` is `Bottom`, not
`Value 1`. -/
theorem lattice_bottom_not_neutral_counterexample :
    ai.Interval.join ai.Interval.bottom ⟨0, 0⟩ ≠ ⟨0, 0⟩ ∧
    ai.Concrete.join ai.Concrete.bottom (.Value 1) ≠ .Value 1 := by
  refine ⟨?_, ?_⟩ <;> decide

/-- C5 (amended): for the Interval and Concrete lattice implementations,
`join` is commutative, associative and idempotent, and `top()` — not
`bottom()` — is the neutral element for `join` (for intervals, on values
whose endpoints are in the `i32` range), while `bottom()` is absorbing. -/
theorem lattice_join_laws :
    (∀ a b : ai.Interval, a.join b = b.join a) ∧
    (∀ a b c : ai.Interval, (a.join b).join c = a.join (b.join c)) ∧
    (∀ a : ai.Interval, a.join a = a) ∧
    (∀ v : ai.Interval, i32Min ≤ v.low → v.low ≤ i32Max →
      i32Min ≤ v.high → v.high ≤ i32Max →
      ai.Interval.top.join v = v ∧ v.join ai.Interval.top = v ∧
      ai.Interval.bottom.join v = ai.Interval.bottom ∧
      v.join ai.Interval.bottom = ai.Interval.bottom) ∧
    (∀ a b : ai.Concrete, a.join b = b.join a) ∧
    (∀ a b c : ai.Concrete, (a.join b).join c = a.join (b.join c)) ∧
    (∀ a : ai.Concrete, a.join a = a) ∧
    (∀ v : ai.Concrete,
      ai.Concrete.top.join v = v ∧ v.join ai.Concrete.top = v ∧
      ai.Concrete.bottom.join v = ai.Concrete.bottom ∧
      v.join ai.Concrete.bottom = ai.Concrete.bottom) := by
  refine ⟨?_, ?_, ?_, ?_, ?_, ?_, ?_, ?_⟩
  · intro a b
    simp [ai.Interval.join, min_comm, max_comm]
  · intro a b c
    simp [ai.Interval.join, min_assoc, max_assoc]
  · intro a
    simp [ai.Interval.join]
  · intro v h1 h2 h3 h4
    obtain ⟨lo, hi⟩ := v
    simp only [i32Min, i32Max] at h1 h2 h3 h4
    refine ⟨?_, ?_, ?_, ?_⟩ <;>
      simp only [ai.Interval.join, ai.Interval.top, ai.Interval.bottom,
        i32Min, i32Max, ai.Interval.mk.injEq] <;>
      constructor <;> omega
  · intro a b
    cases a <;> cases b <;>
      simp only [ai.Concrete.join_top_left, ai.Concrete.join_top_right,
        ai.Concrete.join_bottom_left, ai.Concrete.join_bottom_right,
        ai.Concrete.join_value_value]
    rename_i n m
    by_cases h : n = m
    · subst h
      rfl
    · rw [if_neg h, if_neg (fun hh => h hh.symm)]
  · intro a b c
    cases a <;> cases b <;> cases c <;>
      try simp only [ai.Concrete.join_top_left, ai.Concrete.join_top_right,
        ai.Concrete.join_bottom_left, ai.Concrete.join_bottom_right]
    rename_i n m k
    by_cases h1 : n = m
    · subst h1
      by_cases h2 : n = k
      · subst h2
        simp [ai.Concrete.join_value_value]
      · simp [ai.Concrete.join_value_value, h2,
          ai.Concrete.join_bottom_left, ai.Concrete.join_bottom_right]
    · by_cases h2 : m = k
      · subst h2
        simp [ai.Concrete.join_value_value, h1,
          ai.Concrete.join_bottom_left, ai.Concrete.join_bottom_right]
      · simp [ai.Concrete.join_value_value, h1, h2,
          ai.Concrete.join_bottom_left, ai.Concrete.join_bottom_right]
  · intro a
    cases a <;> simp [ai.Concrete.join]
  · intro v
    exact ⟨ai.Concrete.join_top_left v, ai.Concrete.join_top_right v,
      ai.Concrete.join_bottom_left v, ai.Concrete.join_bottom_right v⟩

theorem lattice_join_laws_witness :
    ai.Interval.top.join ⟨0, 5⟩ = ⟨0, 5⟩ ∧
    ai.Interval.join ⟨1, 2⟩ ⟨3, 4⟩ = ai.Interval.join ⟨3, 4⟩ ⟨1, 2⟩ :=
  ⟨(lattice_join_laws.2.2.2.1 ⟨0, 5⟩ (by decide) (by decide) (by decide)
      (by decide)).1,
   lattice_join_laws.1 ⟨1, 2⟩ ⟨3, 4⟩⟩

/-- C6: evaluation at the failing input.  The interval `Divide` transfer
evaluates the corner quotient `i32::MIN / -1` with the plain (panicking)
division operator, so it faults (modelled as `none`) instead of returning
a lattice value; by contrast `Add` returns `bottom` on overflow and the
constant domain turns checked division / remainder by zero into `Top`. -/
theorem interval_divide_overflow_fault :
    ai.Interval.divTransfer ⟨i32Min, i32Min⟩ ⟨-1, -1⟩ = none ∧
    ai.Interval.addTransfer ⟨i32Max, i32Max⟩ ⟨1, 1⟩ = ai.Interval.bottom ∧
    ai.Concrete.evalBin i32CheckedDiv (.Value 1) (.Value 0) = .Top ∧
    ai.Concrete.evalBin i32CheckedRem (.Value 1) (.Value 0) = .Top := by
  refine ⟨?_, ?_, ?_, ?_⟩ <;> decide

/-- C9: whenever a condition value is simultaneously known-true and
known-false (as both probes report for the interval top `[MAX, MIN]` and
for `Concrete::Top`), `LatticeDomain::branch` returns
`(None, Some(state))` — only the false branch survives, because the
`is_known_false` probe is checked first. -/
theorem branch_false_probe_first {V : Type} (isTrue isFalse : V → Bool)
    (d : ai.LatticeDomain V) (c : V) (_hT : isTrue c = true)
    (hF : isFalse c = true) :
    ai.LatticeDomain.branch isTrue isFalse d c = (none, some d) ∧
    (ai.Interval.isKnownTrue ai.Interval.top = true ∧
      ai.Interval.isKnownFalse ai.Interval.top = true) ∧
    (ai.Concrete.isKnownTrue .Top = true ∧
      ai.Concrete.isKnownFalse .Top = true) := by
  refine ⟨?_, by decide, by decide⟩
  simp [ai.LatticeDomain.branch, hF]

theorem branch_false_probe_first_witness :
    ai.LatticeDomain.branch ai.Interval.isKnownTrue ai.Interval.isKnownFalse
      (⟨[]⟩ : ai.LatticeDomain ai.Interval) ai.Interval.top
      = (none, some ⟨[]⟩) :=
  (branch_false_probe_first ai.Interval.isKnownTrue ai.Interval.isKnownFalse
    ⟨[]⟩ ai.Interval.top (by decide) (by decide)).1

/-!
Part 4: the e-graph of src/ds/src/egraph.rs.  Rows are pairs of
determinant and dependent column lists (`u32` values as `Nat`); a table is
the list of its live rows in insertion order (the mmap buffer, the
`det_map` hash index, and the tombstoned deleted rows of the source are
represented by that sequence: `insert` consults the index and appends,
deletion removes the row from the live sequence).  The `HashMap` from
signatures to tables is an association list.
-/

theorem listSet_getD_ne (l : List Nat) {i j : Nat} (v : Nat) (h : i ≠ j) :
    (l.set i v).getD j 0 = l.getD j 0 := by
  simp [List.getD, List.getElem?_set_ne h]

theorem listSet_getD_eq (l : List Nat) {i : Nat} (v : Nat) (h : i < l.length) :
    (l.set i v).getD i 0 = v := by
  simp [List.getD, List.getElem?_set_eq_of_lt v h]

theorem listSet_self (l : List Nat) {i : Nat} (h : i < l.length) :
    l.set i (l.getD i 0) = l := by
  have hv : l.getD i 0 = l[i] := by simp [List.getD, List.getElem?_eq_getElem h]
  rw [hv]
  apply List.ext_getElem
  · simp
  · intro n h1 h2
    by_cases hn : n = i
    · subst hn
      simp [List.getElem_set]
    · simp only [List.getElem_set]
      rw [if_neg (fun h3 => hn h3.symm)]

/-- Models `Signature` (the `BitArray` mask as a list of booleans). -/
structure Signature where
  classIdMask : List Bool
  numDetCols : Nat
  numDepCols : Nat
  symbolId : Nat
deriving DecidableEq

/-- The ascending indices of set bits, as produced by `iter_ones`. -/
def maskOnes (mask : List Bool) : List Nat :=
  (List.range mask.length).filter (fun i => mask.getD i false)

/-- The value of column `c` of a row, reading the determinant columns
first and then the dependent columns, as `canonicalize` does. -/
def colVal (det dep : List Nat) (c : Nat) : Nat :=
  if c < det.length then det.getD c 0 else dep.getD (c - det.length) 0

/-- One column of `canonicalize`: read the class id, `find` it (mutating
the union-find by path compression), write back the canonical id, and
report whether it changed. -/
def canonStep (uf : UnionFind) (det dep : List Nat) (c : Nat) :
    UnionFind × List Nat × List Nat × Bool :=
  if c < det.length then
    let id := det.getD c 0
    let fr := uf.find id
    (fr.1, det.set c fr.2, dep, decide (id ≠ fr.2))
  else
    let id := dep.getD (c - det.length) 0
    let fr := uf.find id
    (fr.1, det, dep.set (c - det.length) fr.2, decide (id ≠ fr.2))

/-- The fold of `canonStep` over a list of column indices, accumulating
the changed flag with `||` as the source loop does. -/
def canonCols : List Nat → UnionFind → List Nat → List Nat →
    UnionFind × List Nat × List Nat × Bool
  | [], uf, det, dep => (uf, det, dep, false)
  | c :: cs, uf, det, dep =>
    let s := canonStep uf det dep c
    let rest := canonCols cs s.1 s.2.1 s.2.2.1
    (rest.1, rest.2.1, rest.2.2.1, s.2.2.2 || rest.2.2.2)

/-- Models the free function `canonicalize` of egraph.rs. -/
def canonicalize (uf : UnionFind) (det dep : List Nat) (sig : Signature) :
    UnionFind × List Nat × List Nat × Bool :=
  canonCols (maskOnes sig.classIdMask) uf det dep

/-- A table: the live rows (determinant, dependent) in insertion order. -/
abbrev MTable : Type := List (List Nat × List Nat)

/-- Models `Table::insert`'s lookup on the determinant index. -/
def tableLookup (t : MTable) (det : List Nat) : Option (List Nat) :=
  (t.find? (fun r => decide (r.1 = det))).map (fun r => r.2)

/-- Models `Table::insert`: idempotent on the determinant; returns the
pre-existing dependent columns when present, otherwise appends the row. -/
def tableInsert (t : MTable) (det dep : List Nat) :
    Option (List Nat) × MTable :=
  match tableLookup t det with
  | some d => (some d, t)
  | none => (none, t ++ [(det, dep)])

/-- Models `EGraph { tables, uf }`. -/
structure EGraph where
  tables : List (Signature × MTable)
  uf : UnionFind

/-- Models `EGraph::insert_or_merge`: the declared root is the first
dependent column; on a determinant collision the declared and
pre-existing roots are merged and the pre-existing root is returned. -/
def insertOrMerge (uf : UnionFind) (t : MTable) (det dep : List Nat) :
    UnionFind × MTable × Nat :=
  let oldRoot := dep.headD 0
  let ins := tableInsert t det dep
  match ins.1 with
  | some newDep =>
    let newRoot := newDep.headD 0
    ((uf.merge oldRoot newRoot).1, ins.2, newRoot)
  | none => (uf, ins.2, oldRoot)

def tablesLookup (ts : List (Signature × MTable)) (sig : Signature) :
    Option MTable :=
  (ts.find? (fun p => decide (p.1 = sig))).map (fun p => p.2)

def updateTables (ts : List (Signature × MTable)) (sig : Signature)
    (t : MTable) : List (Signature × MTable) :=
  ts.map (fun p => if p.1 = sig then (sig, t) else p)

/-- Models `EGraph::insert` at the row level (after `encode_to_row`):
canonicalize the encoded row, find or create the signature's table and
run `insert_or_merge`. -/
def EGraph.insertRow (g : EGraph) (sig : Signature) (det dep : List Nat) :
    EGraph × Nat :=
  let c := canonicalize g.uf det dep sig
  match tablesLookup g.tables sig with
  | some t =>
    let r := insertOrMerge c.1 t c.2.1 c.2.2.1
    (⟨updateTables g.tables sig r.2.1, r.1⟩, r.2.2)
  | none =>
    let r := insertOrMerge c.1 [] c.2.1 c.2.2.1
    (⟨g.tables ++ [(sig, r.2.1)], r.1⟩, r.2.2)

/-- Models `EGraph::makeset`. -/
def EGraph.makeset (g : EGraph) : EGraph × Nat :=
  let m := g.uf.makeset
  (⟨g.tables, m.1⟩, m.2)

/-- Models `EGraph::merge`. -/
def EGraph.merge (g : EGraph) (a b : Nat) : EGraph × Nat :=
  let m := g.uf.merge a b
  (⟨g.tables, m.1⟩, m.2)

/-- The row scan of one `rebuild` pass over one table: canonicalize every
live row; rows that changed are deleted (collected separately, already in
canonical form), unchanged rows stay. -/
def canonRows : MTable → UnionFind → Signature →
    UnionFind × MTable × MTable × Bool
  | [], uf, _ => (uf, [], [], false)
  | (det, dep) :: rest, uf, sig =>
    let c := canonicalize uf det dep sig
    let r := canonRows rest c.1 sig
    if c.2.2.2 then (r.1, r.2.1, (c.2.1, c.2.2.1) :: r.2.2.1, true)
    else (r.1, (det, dep) :: r.2.1, r.2.2.1, r.2.2.2)

/-- Re-insertion of the canonicalized rows after the deletion, via
`insert_or_merge`, in order. -/
def insertRows : MTable → UnionFind → MTable → UnionFind × MTable
  | [], uf, t => (uf, t)
  | (det, dep) :: rest, uf, t =>
    let r := insertOrMerge uf t det dep
    insertRows rest r.1 r.2.1

/-- One pass of `EGraph::rebuild` over all tables. -/
def rebuildPassTables : List (Signature × MTable) → UnionFind →
    List (Signature × MTable) × UnionFind × Bool
  | [], uf => ([], uf, false)
  | (sig, t) :: rest, uf =>
    let c := canonRows t uf sig
    let ins := insertRows c.2.2.1 c.1 c.2.1
    let r := rebuildPassTables rest ins.1
    ((sig, ins.2) :: r.1, r.2.1, c.2.2.2 || r.2.2)

/-- The outer loop of `EGraph::rebuild`, with fuel: repeat passes until
one makes no change; report whether any pass changed anything. -/
def rebuildLoop : Nat → EGraph → Bool → Option (EGraph × Bool)
  | 0, _, _ => none
  | fuel + 1, g, ever =>
    let p := rebuildPassTables g.tables g.uf
    if p.2.2 then rebuildLoop fuel ⟨p.1, p.2.1⟩ true
    else some (⟨p.1, p.2.1⟩, ever)

/-- Models `EGraph::rebuild`. -/
def EGraph.rebuild (fuel : Nat) (g : EGraph) : Option (EGraph × Bool) :=
  rebuildLoop fuel g false

/-- The per-table row scan of `EGraph::corebuild`: canonicalize each row
through `last` and record (canonical determinant, declared root). -/
def corebuildRows : MTable → UnionFind → Signature →
    UnionFind × List (List Nat × Nat)
  | [], last, _ => (last, [])
  | (det, dep) :: rest, last, sig =>
    let before := dep.headD 0
    let c := canonicalize last det dep sig
    let r := corebuildRows rest c.1 sig
    (r.1, (c.2.1, before) :: r.2)

/-- Append a root into the group of its determinant (first-occurrence
order; the source collects groups in a `HashMap`, whose value iteration
order is determinised here). -/
def groupAdd : List (List Nat × List Nat) → List Nat → Nat →
    List (List Nat × List Nat)
  | [], det, root => [(det, [root])]
  | (d, roots) :: gs, det, root =>
    if d = det then (d, roots ++ [root]) :: gs
    else (d, roots) :: groupAdd gs det root

/-- Group the (canonical determinant, root) pairs by determinant. -/
def groupByDet : List (List Nat × Nat) → List (List Nat × List Nat) →
    List (List Nat × List Nat)
  | [], gs => gs
  | (det, root) :: rest, gs => groupByDet rest (groupAdd gs det root)

/-- Merge the head of an equivalence group with each of its tail
elements, as `corebuild` does in `next_uf`. -/
def mergeRoots (next : UnionFind) : List Nat → UnionFind
  | [] => next
  | head :: tail => tail.foldl (fun u r => (u.merge head r).1) next

/-- One iteration of the inner `corebuild` loop over all tables:
canonicalize all rows through `last`, collect the congruence groups and
merge each group in `next`. -/
def corebuildTables : List (Signature × MTable) → UnionFind → UnionFind →
    UnionFind × UnionFind
  | [], last, next => (last, next)
  | (sig, t) :: rest, last, next =>
    let cr := corebuildRows t last sig
    let groups := groupByDet cr.2 []
    let next' := groups.foldl (fun u g => mergeRoots u g.2) next
    corebuildTables rest cr.1 next'

/-- Models the derived `PartialEq` on the parent vectors. -/
def ufEqb (a b : UnionFind) : Bool :=
  a.len == b.len && (List.range a.len).all (fun i => a.par i == b.par i)

/-- The inner fixpoint loop of `corebuild`, with fuel: stop when `last`
and `next` agree, otherwise swap and reset `next` to all-distinct. -/
def corebuildLoop : Nat → List (Signature × MTable) → UnionFind →
    UnionFind → Option UnionFind
  | 0, _, _, _ => none
  | fuel + 1, tables, last, next =>
    let r := corebuildTables tables last next
    if ufEqb r.1 r.2 then some r.1
    else corebuildLoop fuel tables r.2 r.2.setAllNotEquals

/-- The final phase of `corebuild`: merge every id with its `last`
representative into the main union-find, tracking whether anything
changed. -/
def corebuildFinalGo : List Nat → UnionFind → UnionFind → Bool →
    UnionFind × UnionFind × Bool
  | [], last, guf, changed => (last, guf, changed)
  | id :: rest, last, guf, changed =>
    let f1 := last.find id
    let canon := f1.2
    let f2 := guf.find id
    let f3 := f2.1.find canon
    let changed' := decide (f2.2 ≠ f3.2) || changed
    let m := f3.1.merge id canon
    corebuildFinalGo rest f1.1 m.1 changed'

/-- Models `EGraph::corebuild`, with fuel for its inner loop. -/
def EGraph.corebuild (fuel : Nat) (g : EGraph) : Option (EGraph × Bool) :=
  let n := g.uf.numClasses
  match corebuildLoop fuel g.tables (UnionFind.newAllEquals n)
      (UnionFind.newAllNotEquals n) with
  | none => none
  | some last =>
    let fin := corebuildFinalGo (List.range n) last g.uf false
    some (⟨g.tables, fin.2.1⟩, fin.2.2)

/-- The loop of `EGraph::full_repair`: alternate `corebuild` and
`rebuild` until a rebuild reports no change. -/
def fullRepairLoop : Nat → Nat → EGraph → Bool → Option (EGraph × Bool)
  | 0, _, _, _ => none
  | fuel + 1, innerFuel, g, changed =>
    match EGraph.corebuild innerFuel g with
    | none => none
    | some (g₁, ch₁) =>
      let changed₁ := ch₁ || changed
      match EGraph.rebuild innerFuel g₁ with
      | none => none
      | some (g₂, ch₂) =>
        if ch₂ then fullRepairLoop fuel innerFuel g₂ true
        else some (g₂, changed₁)

/-- Models `EGraph::full_repair`, with fuel. -/
def EGraph.fullRepair (fuel : Nat) (g : EGraph) : Option (EGraph × Bool) :=
  fullRepairLoop fuel fuel g false

/-!
Lemmas for the congruence-closure theorem.  `RootsPreserved u v` says
that operation(s) turning `u` into `v` did not change the partition on
the live ids of `u` (true of every `find`, false of `merge`).
-/

def RootsPreserved (u v : UnionFind) : Prop :=
  ∀ z r, z < u.len → UnionFind.Reaches u z r → UnionFind.Reaches v z r

theorem rootsPreserved_refl (u : UnionFind) : RootsPreserved u u :=
  fun _ _ _ h => h

theorem rootsPreserved_trans {u v w : UnionFind} (h₁ : RootsPreserved u v)
    (h₂ : RootsPreserved v w) (hlen : v.len = u.len) :
    RootsPreserved u w :=
  fun z r hz hr => h₂ z r (by omega) (h₁ z r hz hr)

theorem find_inv {u : UnionFind} (hInv : UnionFind.Inv u) {id : Nat}
    (hid : id < u.len) : UnionFind.Inv (u.find id).1 := by
  obtain ⟨r, hr⟩ := UnionFind.reaches_total hInv id hid
  exact (UnionFind.find_spec hInv hid hr).2.1

theorem find_pres {u : UnionFind} (hInv : UnionFind.Inv u) {id : Nat}
    (hid : id < u.len) : RootsPreserved u (u.find id).1 := by
  obtain ⟨r, hr⟩ := UnionFind.reaches_total hInv id hid
  exact fun z s hz hs => (UnionFind.find_spec hInv hid hr).2.2.2 z hz s hs

theorem find_val_reaches {u : UnionFind} (hInv : UnionFind.Inv u) {id : Nat}
    (hid : id < u.len) : UnionFind.Reaches u id (u.find id).2 := by
  obtain ⟨r, hr⟩ := UnionFind.reaches_total hInv id hid
  rw [(UnionFind.find_spec hInv hid hr).1]
  exact hr

theorem find_le {u : UnionFind} (hInv : UnionFind.Inv u) {id : Nat}
    (hid : id < u.len) : (u.find id).2 ≤ id :=
  UnionFind.reaches_le hInv hid (find_val_reaches hInv hid)

/-- A `find` of a root returns it unchanged, by one unfolding. -/
theorem find_of_root {u : UnionFind} {c : Nat} (hc : u.par c = c) :
    u.find c = (u, c) := by
  unfold UnionFind.find UnionFind.findAux
  rw [if_pos hc]

theorem isRoot_preserved {u v : UnionFind} (hp : RootsPreserved u v)
    (hinvv : UnionFind.Inv v) {c : Nat} (hcu : c < u.len) (hcv : c < v.len)
    (hc : u.par c = c) : v.par c = c :=
  UnionFind.root_fixed hinvv hcv (hp c c hcu (.refl c hc))

/-- Full behaviour of one canonicalization step. -/
theorem canonStep_spec {uf : UnionFind} {det dep : List Nat} {c : Nat}
    (hInv : UnionFind.Inv uf) (hval : colVal det dep c < uf.len)
    (hc : c < det.length + dep.length) :
    UnionFind.Inv (canonStep uf det dep c).1 ∧
    (canonStep uf det dep c).1.len = uf.len ∧
    RootsPreserved uf (canonStep uf det dep c).1 ∧
    (canonStep uf det dep c).2.1.length = det.length ∧
    (canonStep uf det dep c).2.2.1.length = dep.length ∧
    (∀ j, j ≠ c →
      colVal (canonStep uf det dep c).2.1 (canonStep uf det dep c).2.2.1 j
        = colVal det dep j) ∧
    colVal (canonStep uf det dep c).2.1 (canonStep uf det dep c).2.2.1 c
      = (uf.find (colVal det dep c)).2 ∧
    ((canonStep uf det dep c).2.2.2 = false →
      (canonStep uf det dep c).2.1 = det ∧
      (canonStep uf det dep c).2.2.1 = dep ∧
      uf.par (colVal det dep c) = colVal det dep c) := by
  by_cases hcd : c < det.length
  · have hcol : colVal det dep c = det.getD c 0 := by
      rw [colVal, if_pos hcd]
    have hstep : canonStep uf det dep c =
        ((uf.find (det.getD c 0)).1, det.set c (uf.find (det.getD c 0)).2,
          dep, decide (det.getD c 0 ≠ (uf.find (det.getD c 0)).2)) := by
      rw [canonStep, if_pos hcd]
    rw [hstep]
    dsimp only
    rw [hcol] at hval
    refine ⟨find_inv hInv hval, UnionFind.reachable_find_len hInv hval,
      find_pres hInv hval, by simp, rfl, ?_, ?_, ?_⟩
    · intro j hj
      by_cases hjd : j < det.length
      · rw [colVal, colVal, if_pos hjd,
          if_pos (by simp only [List.length_set]; exact hjd),
          listSet_getD_ne det _ (fun h => hj h.symm)]
      · rw [colVal, colVal, if_neg hjd,
          if_neg (by simp only [List.length_set]; exact hjd)]
        simp
    · rw [colVal, if_pos (by simp only [List.length_set]; exact hcd), hcol,
        listSet_getD_eq det _ hcd]
    · intro hch
      simp only [decide_eq_false_iff_not, not_not] at hch
      refine ⟨?_, rfl, ?_⟩
      · rw [← hch, listSet_self det hcd]
      · rw [hcol]
        have hrr := find_val_reaches hInv hval
        rw [← hch] at hrr
        exact UnionFind.root_fixed hInv hval hrr
  · have hcol : colVal det dep c = dep.getD (c - det.length) 0 := by
      rw [colVal, if_neg hcd]
    have hdd : c - det.length < dep.length := by omega
    have hstep : canonStep uf det dep c =
        ((uf.find (dep.getD (c - det.length) 0)).1, det,
          dep.set (c - det.length) (uf.find (dep.getD (c - det.length) 0)).2,
          decide (dep.getD (c - det.length) 0
            ≠ (uf.find (dep.getD (c - det.length) 0)).2)) := by
      rw [canonStep, if_neg hcd]
    rw [hstep]
    dsimp only
    rw [hcol] at hval
    refine ⟨find_inv hInv hval, UnionFind.reachable_find_len hInv hval,
      find_pres hInv hval, rfl, by simp, ?_, ?_, ?_⟩
    · intro j hj
      by_cases hjd : j < det.length
      · rw [colVal, colVal, if_pos hjd, if_pos hjd]
      · rw [colVal, colVal, if_neg hjd, if_neg hjd,
          listSet_getD_ne dep _ (by omega)]
    · rw [colVal, if_neg hcd, hcol, listSet_getD_eq dep _ hdd]
    · intro hch
      simp only [decide_eq_false_iff_not, not_not] at hch
      refine ⟨rfl, ?_, ?_⟩
      · rw [← hch, listSet_self dep hdd]
      · rw [hcol]
        have hrr := find_val_reaches hInv hval
        rw [← hch] at hrr
        exact UnionFind.root_fixed hInv hval hrr

/-- Full behaviour of the canonicalization fold over a duplicate-free
list of class-id columns. -/
theorem canonCols_spec (cols : List Nat) : ∀ (uf : UnionFind) (det dep : List Nat),
    UnionFind.Inv uf → cols.Nodup →
    (∀ c ∈ cols, colVal det dep c < uf.len ∧ c < det.length + dep.length) →
    UnionFind.Inv (canonCols cols uf det dep).1 ∧
    (canonCols cols uf det dep).1.len = uf.len ∧
    RootsPreserved uf (canonCols cols uf det dep).1 ∧
    (canonCols cols uf det dep).2.1.length = det.length ∧
    (canonCols cols uf det dep).2.2.1.length = dep.length ∧
    (∀ j, j ∉ cols →
      colVal (canonCols cols uf det dep).2.1 (canonCols cols uf det dep).2.2.1 j
        = colVal det dep j) ∧
    (∀ c ∈ cols,
      colVal (canonCols cols uf det dep).2.1 (canonCols cols uf det dep).2.2.1 c
        < uf.len) ∧
    ((canonCols cols uf det dep).2.2.2 = false →
      (canonCols cols uf det dep).2.1 = det ∧
      (canonCols cols uf det dep).2.2.1 = dep ∧
      (∀ c ∈ cols,
        (canonCols cols uf det dep).1.par (colVal det dep c) = colVal det dep c)) := by
  induction cols with
  | nil =>
    intro uf det dep hInv _ _
    exact ⟨hInv, rfl, rootsPreserved_refl uf, rfl, rfl,
      fun j _ => rfl, fun c hc => absurd hc (List.not_mem_nil c),
      fun _ => ⟨rfl, rfl, fun c hc => absurd hc (List.not_mem_nil c)⟩⟩
  | cons c cs ih =>
    intro uf det dep hInv hnd hbounds
    obtain ⟨hval, hcb⟩ := hbounds c (List.mem_cons_self c cs)
    have hspec := canonStep_spec hInv hval hcb
    obtain ⟨hsInv, hslen, hspres, hsdlen, hsplen, hsother, hsval, hsfalse⟩ := hspec
    have hcnotin : c ∉ cs := (List.nodup_cons.mp hnd).1
    have hndcs : cs.Nodup := (List.nodup_cons.mp hnd).2
    have hbounds' : ∀ c' ∈ cs,
        colVal (canonStep uf det dep c).2.1 (canonStep uf det dep c).2.2.1 c'
          < (canonStep uf det dep c).1.len ∧
        c' < (canonStep uf det dep c).2.1.length
          + (canonStep uf det dep c).2.2.1.length := by
      intro c' hc'
      have hne : c' ≠ c := fun h => hcnotin (h ▸ hc')
      rw [hsother c' hne, hslen, hsdlen, hsplen]
      exact hbounds c' (List.mem_cons_of_mem c hc')
    have hrest := ih (canonStep uf det dep c).1 (canonStep uf det dep c).2.1
      (canonStep uf det dep c).2.2.1 hsInv hndcs hbounds'
    obtain ⟨hrInv, hrlen, hrpres, hrdlen, hrplen, hrother, hrbound, hrfalse⟩ := hrest
    have hunf : canonCols (c :: cs) uf det dep =
        ((canonCols cs (canonStep uf det dep c).1 (canonStep uf det dep c).2.1
            (canonStep uf det dep c).2.2.1).1,
          (canonCols cs (canonStep uf det dep c).1 (canonStep uf det dep c).2.1
            (canonStep uf det dep c).2.2.1).2.1,
          (canonCols cs (canonStep uf det dep c).1 (canonStep uf det dep c).2.1
            (canonStep uf det dep c).2.2.1).2.2.1,
          (canonStep uf det dep c).2.2.2 ||
            (canonCols cs (canonStep uf det dep c).1 (canonStep uf det dep c).2.1
              (canonStep uf det dep c).2.2.1).2.2.2) := rfl
    rw [hunf]
    dsimp only
    refine ⟨hrInv, by rw [hrlen, hslen], ?_, by rw [hrdlen, hsdlen],
      by rw [hrplen, hsplen], ?_, ?_, ?_⟩
    · exact rootsPreserved_trans hspres hrpres hslen
    · intro j hj
      have hjc : j ≠ c := fun h => hj (h ▸ List.mem_cons_self c cs)
      have hjcs : j ∉ cs := fun h => hj (List.mem_cons_of_mem c h)
      rw [hrother j hjcs, hsother j hjc]
    · intro c' hc'
      rcases List.mem_cons.mp hc' with h | h
      · subst h
        rw [hrother c' hcnotin, hsval]
        calc (uf.find (colVal det dep c')).2
            ≤ colVal det dep c' := find_le hInv hval
          _ < uf.len := hval
      · rw [← hslen]
        exact hrbound c' h
    · intro hch
      rw [Bool.or_eq_false_iff] at hch
      obtain ⟨hd, hp, hroot⟩ := hsfalse hch.1
      have hch2 := hch.2
      rw [hd, hp] at hch2 hrfalse hrpres hrInv hrlen ⊢
      obtain ⟨hrd, hrp, hrroot⟩ := hrfalse hch2
      refine ⟨hrd, hrp, ?_⟩
      intro c' hc'
      rcases List.mem_cons.mp hc' with h | h
      · subst h
        have hroot1 := isRoot_preserved hspres hsInv hval
          (by rw [hslen]; exact hval) hroot
        exact isRoot_preserved hrpres hrInv
          (by rw [hslen]; exact hval) (by rw [hrlen, hslen]; exact hval) hroot1
      · exact hrroot c' h

theorem listGetD_zero {α : Type} (l : List α) (d : α) : l.getD 0 d = l.headD d := by
  cases l <;> rfl

theorem maskOnes_nodup (mask : List Bool) : (maskOnes mask).Nodup :=
  (List.nodup_range mask.length).filter _

theorem maskOnes_mem {mask : List Bool} {c : Nat} :
    c ∈ maskOnes mask ↔ c < mask.length ∧ mask.getD c false = true := by
  rw [maskOnes, List.mem_filter, List.mem_range]

theorem mem_maskOnes_of_getD {mask : List Bool} {c : Nat}
    (h : mask.getD c false = true) : c ∈ maskOnes mask := by
  rw [maskOnes_mem]
  refine ⟨?_, h⟩
  by_contra hc
  rw [List.getD_eq_default _ _ (by omega)] at h
  exact Bool.false_ne_true h

/-- Well-formedness of a signature: its class-id columns lie inside the
row, its (single-column) dependent root is marked as a class id. -/
def sigWF (sig : Signature) : Prop :=
  (∀ c ∈ maskOnes sig.classIdMask, c < sig.numDetCols + sig.numDepCols) ∧
  sig.classIdMask.getD sig.numDetCols false = true ∧
  0 < sig.numDepCols

/-- Well-formedness of a row against a union-find of `n` classes. -/
def rowWF (n : Nat) (sig : Signature) (r : List Nat × List Nat) : Prop :=
  r.1.length = sig.numDetCols ∧ r.2.length = sig.numDepCols ∧
  ∀ c ∈ maskOnes sig.classIdMask, colVal r.1 r.2 c < n

/-- Well-formedness of a table: all rows well-formed and determinants
unique among live rows (the `det_map` invariant). -/
def tableWF (n : Nat) (sig : Signature) (t : MTable) : Prop :=
  (∀ r ∈ t, rowWF n sig r) ∧ (t.map Prod.fst).Nodup

/-- Well-formedness of an e-graph state. -/
def EGraph.WF (g : EGraph) : Prop :=
  UnionFind.Inv g.uf ∧
  ∀ p ∈ g.tables, sigWF p.1 ∧ tableWF g.uf.len p.1 p.2

/-- The declared root (first dependent column) of a well-formed row is a
live class id. -/
theorem rowWF_dep_head {n : Nat} {sig : Signature} {r : List Nat × List Nat}
    (hsig : sigWF sig) (hr : rowWF n sig r) : r.2.headD 0 < n := by
  obtain ⟨hdl, hpl, hcols⟩ := hr
  have hmem : sig.numDetCols ∈ maskOnes sig.classIdMask :=
    mem_maskOnes_of_getD hsig.2.1
  have := hcols sig.numDetCols hmem
  rw [colVal, if_neg (by omega)] at this
  rw [← listGetD_zero]
  have hz : sig.numDetCols - r.1.length = 0 := by omega
  rw [hz] at this
  exact this

/-- `canonicalize` on a well-formed row: invariant, length and partition
preservation, bounded outputs, and the meaning of an unchanged flag. -/
theorem canonicalize_spec {uf : UnionFind} {det dep : List Nat}
    {sig : Signature} (hInv : UnionFind.Inv uf) (hsig : sigWF sig)
    (hrow : rowWF uf.len sig (det, dep)) :
    UnionFind.Inv (canonicalize uf det dep sig).1 ∧
    (canonicalize uf det dep sig).1.len = uf.len ∧
    RootsPreserved uf (canonicalize uf det dep sig).1 ∧
    rowWF uf.len sig ((canonicalize uf det dep sig).2.1,
      (canonicalize uf det dep sig).2.2.1) ∧
    ((canonicalize uf det dep sig).2.2.2 = false →
      (canonicalize uf det dep sig).2.1 = det ∧
      (canonicalize uf det dep sig).2.2.1 = dep ∧
      (∀ c ∈ maskOnes sig.classIdMask,
        (canonicalize uf det dep sig).1.par (colVal det dep c)
          = colVal det dep c)) := by
  obtain ⟨hdl, hpl, hcols⟩ := hrow
  dsimp only at hdl hpl hcols
  have hbounds : ∀ c ∈ maskOnes sig.classIdMask,
      colVal det dep c < uf.len ∧ c < det.length + dep.length := by
    intro c hc
    refine ⟨hcols c hc, ?_⟩
    have := hsig.1 c hc
    omega
  have hspec := canonCols_spec (maskOnes sig.classIdMask) uf det dep hInv
    (maskOnes_nodup sig.classIdMask) hbounds
  obtain ⟨h1, h2, h3, h4, h5, _, h7, h8⟩ := hspec
  refine ⟨h1, h2, h3, ⟨?_, ?_, ?_⟩, h8⟩
  · show (canonCols (maskOnes sig.classIdMask) uf det dep).2.1.length
      = sig.numDetCols
    rw [h4, hdl]
  · show (canonCols (maskOnes sig.classIdMask) uf det dep).2.2.1.length
      = sig.numDepCols
    rw [h5, hpl]
  · intro c hc
    show colVal (canonCols (maskOnes sig.classIdMask) uf det dep).2.1
      (canonCols (maskOnes sig.classIdMask) uf det dep).2.2.1 c < uf.len
    exact h7 c hc

/-- General behaviour of the row scan of a rebuild pass: the union-find
invariant, length and partition are preserved (only finds happen), the
kept rows form a sublist of the originals, and the canonicalized rows
are still well-formed. -/
theorem canonRows_wf (t : MTable) : ∀ (uf : UnionFind) (sig : Signature),
    UnionFind.Inv uf → sigWF sig → (∀ r ∈ t, rowWF uf.len sig r) →
    UnionFind.Inv (canonRows t uf sig).1 ∧
    (canonRows t uf sig).1.len = uf.len ∧
    RootsPreserved uf (canonRows t uf sig).1 ∧
    (canonRows t uf sig).2.1.Sublist t ∧
    (∀ r ∈ (canonRows t uf sig).2.2.1, rowWF uf.len sig r) := by
  induction t with
  | nil =>
    intro uf sig hInv _ _
    exact ⟨hInv, rfl, rootsPreserved_refl uf, List.Sublist.refl [],
      fun r hr => absurd hr (List.not_mem_nil r)⟩
  | cons row rest ih =>
    intro uf sig hInv hsig hrows
    obtain ⟨det, dep⟩ := row
    have hrow := hrows (det, dep) (List.mem_cons_self _ _)
    have hc := canonicalize_spec hInv hsig hrow
    obtain ⟨hcInv, hclen, hcpres, hcrow, hcfalse⟩ := hc
    have hrows' : ∀ r ∈ rest, rowWF (canonicalize uf det dep sig).1.len sig r := by
      intro r hr
      rw [hclen]
      exact hrows r (List.mem_cons_of_mem _ hr)
    have hrest := ih (canonicalize uf det dep sig).1 sig hcInv hsig hrows'
    obtain ⟨hrInv, hrlen, hrpres, hrsub, hrok⟩ := hrest
    have hunf : canonRows ((det, dep) :: rest) uf sig =
        if (canonicalize uf det dep sig).2.2.2 then
          ((canonRows rest (canonicalize uf det dep sig).1 sig).1,
            (canonRows rest (canonicalize uf det dep sig).1 sig).2.1,
            ((canonicalize uf det dep sig).2.1,
              (canonicalize uf det dep sig).2.2.1) ::
              (canonRows rest (canonicalize uf det dep sig).1 sig).2.2.1,
            true)
        else
          ((canonRows rest (canonicalize uf det dep sig).1 sig).1,
            (det, dep) :: (canonRows rest (canonicalize uf det dep sig).1 sig).2.1,
            (canonRows rest (canonicalize uf det dep sig).1 sig).2.2.1,
            (canonRows rest (canonicalize uf det dep sig).1 sig).2.2.2) := rfl
    rw [hunf]
    by_cases hflag : (canonicalize uf det dep sig).2.2.2
    · rw [if_pos hflag]
      dsimp only
      refine ⟨hrInv, by rw [hrlen, hclen], ?_, hrsub.cons _, ?_⟩
      · exact rootsPreserved_trans hcpres hrpres hclen
      · intro r hr
        rcases List.mem_cons.mp hr with h | h
        · subst h
          exact hcrow
        · exact (by rw [← hclen]; exact hrok r h)
    · rw [if_neg hflag]
      dsimp only
      refine ⟨hrInv, by rw [hrlen, hclen], ?_, hrsub.cons₂ _, ?_⟩
      · exact rootsPreserved_trans hcpres hrpres hclen
      · intro r hr
        rw [← hclen]
        exact hrok r hr

/-- The row scan when it reports no change: nothing was collected for
re-insertion, the kept rows are exactly the originals, the partition is
untouched, and every class-id column of every row is its own
representative in the resulting union-find. -/
theorem canonRows_false (t : MTable) : ∀ (uf : UnionFind) (sig : Signature),
    UnionFind.Inv uf → sigWF sig → (∀ r ∈ t, rowWF uf.len sig r) →
    (canonRows t uf sig).2.2.2 = false →
    (canonRows t uf sig).2.1 = t ∧ (canonRows t uf sig).2.2.1 = [] ∧
    UnionFind.Inv (canonRows t uf sig).1 ∧
    (canonRows t uf sig).1.len = uf.len ∧
    RootsPreserved uf (canonRows t uf sig).1 ∧
    (∀ r ∈ t, ∀ c ∈ maskOnes sig.classIdMask,
      (canonRows t uf sig).1.par (colVal r.1 r.2 c) = colVal r.1 r.2 c) := by
  induction t with
  | nil =>
    intro uf sig hInv _ _ _
    exact ⟨rfl, rfl, hInv, rfl, rootsPreserved_refl uf,
      fun r hr => absurd hr (List.not_mem_nil r)⟩
  | cons row rest ih =>
    intro uf sig hInv hsig hrows hfl
    obtain ⟨det, dep⟩ := row
    have hrow := hrows (det, dep) (List.mem_cons_self _ _)
    have hc := canonicalize_spec hInv hsig hrow
    obtain ⟨hcInv, hclen, hcpres, hcrow, hcfalse⟩ := hc
    have hrows' : ∀ r ∈ rest, rowWF (canonicalize uf det dep sig).1.len sig r := by
      intro r hr
      rw [hclen]
      exact hrows r (List.mem_cons_of_mem _ hr)
    by_cases hflag : (canonicalize uf det dep sig).2.2.2
    · exfalso
      have : canonRows ((det, dep) :: rest) uf sig =
          ((canonRows rest (canonicalize uf det dep sig).1 sig).1,
            (canonRows rest (canonicalize uf det dep sig).1 sig).2.1,
            ((canonicalize uf det dep sig).2.1,
              (canonicalize uf det dep sig).2.2.1) ::
              (canonRows rest (canonicalize uf det dep sig).1 sig).2.2.1,
            true) := by
        rw [canonRows, if_pos hflag]
      rw [this] at hfl
      exact Bool.noConfusion hfl
    · have hunf : canonRows ((det, dep) :: rest) uf sig =
          ((canonRows rest (canonicalize uf det dep sig).1 sig).1,
            (det, dep) :: (canonRows rest (canonicalize uf det dep sig).1 sig).2.1,
            (canonRows rest (canonicalize uf det dep sig).1 sig).2.2.1,
            (canonRows rest (canonicalize uf det dep sig).1 sig).2.2.2) := by
        rw [canonRows, if_neg hflag]
      rw [hunf] at hfl ⊢
      dsimp only at hfl ⊢
      have hrest := ih (canonicalize uf det dep sig).1 sig hcInv hsig hrows' hfl
      obtain ⟨hkept, hchg, hrInv, hrlen, hrpres, hrroots⟩ := hrest
      obtain ⟨hdet, hdep, hroots⟩ := hcfalse (by simpa using hflag)
      refine ⟨by rw [hkept], hchg, hrInv, by rw [hrlen, hclen], ?_, ?_⟩
      · exact rootsPreserved_trans hcpres hrpres hclen
      · intro r hr c hc
        rcases List.mem_cons.mp hr with h | h
        · subst h
          have hval : colVal det dep c < uf.len := hrow.2.2 c hc
          have hfix := hroots c hc
          exact isRoot_preserved hrpres hrInv (by rw [hclen]; exact hval)
            (by rw [hrlen, hclen]; exact hval) hfix
        · exact hrroots r h c hc

theorem tableLookup_none_iff {t : MTable} {det : List Nat} :
    tableLookup t det = none ↔ ∀ r ∈ t, r.1 ≠ det := by
  rw [tableLookup, Option.map_eq_none', List.find?_eq_none]
  constructor
  · intro h r hr
    have := h r hr
    simpa using this
  · intro h r hr
    simpa using h r hr

theorem tableLookup_some_mem {t : MTable} {det d : List Nat}
    (h : tableLookup t det = some d) : (det, d) ∈ t := by
  rw [tableLookup] at h
  obtain ⟨r, hfind, hval⟩ := Option.map_eq_some'.mp h
  have hmem := List.mem_of_find?_eq_some hfind
  have hprop := List.find?_some hfind
  simp only [decide_eq_true_eq] at hprop
  obtain ⟨rd, rp⟩ := r
  dsimp only at hprop hval
  rw [hprop, hval] at hmem
  exact hmem

/-- `insert_or_merge` preserves the union-find invariant and length and
the table well-formedness. -/
theorem insertOrMerge_wf {uf : UnionFind} {t : MTable} {det dep : List Nat}
    {sig : Signature} (hInv : UnionFind.Inv uf) (hsig : sigWF sig)
    (ht : tableWF uf.len sig t) (hrow : rowWF uf.len sig (det, dep)) :
    UnionFind.Inv (insertOrMerge uf t det dep).1 ∧
    (insertOrMerge uf t det dep).1.len = uf.len ∧
    tableWF uf.len sig (insertOrMerge uf t det dep).2.1 := by
  rw [insertOrMerge, tableInsert]
  cases hcase : tableLookup t det with
  | some newDep =>
    dsimp only
    have hmem : (det, newDep) ∈ t := tableLookup_some_mem hcase
    have hnew : rowWF uf.len sig (det, newDep) := ht.1 _ hmem
    have h1 : dep.headD 0 < uf.len := rowWF_dep_head hsig hrow
    have h2 : newDep.headD 0 < uf.len := rowWF_dep_head hsig hnew
    obtain ⟨hmInv, hmlen⟩ := UnionFind.merge_inv hInv h1 h2
    exact ⟨hmInv, hmlen, ht⟩
  | none =>
    dsimp only
    refine ⟨hInv, rfl, ?_, ?_⟩
    · intro r hr
      rcases List.mem_append.mp hr with h | h
      · exact ht.1 r h
      · rw [List.mem_singleton.mp h]
        exact hrow
    · rw [List.map_append]
      rw [List.nodup_append]
      refine ⟨ht.2, List.nodup_singleton det, ?_⟩
      intro a ha hb
      rw [List.mem_map] at ha
      obtain ⟨r, hrmem, hrfst⟩ := ha
      simp only [List.map_cons, List.map_nil, List.mem_singleton] at hb
      subst hb
      exact (tableLookup_none_iff.mp hcase r hrmem) hrfst

/-- `insertRows` (the re-insertion phase of a rebuild pass) preserves the
union-find invariant and length and the table well-formedness. -/
theorem insertRows_wf (rows : MTable) : ∀ (uf : UnionFind) (t : MTable)
    (sig : Signature), UnionFind.Inv uf → sigWF sig →
    tableWF uf.len sig t → (∀ r ∈ rows, rowWF uf.len sig r) →
    UnionFind.Inv (insertRows rows uf t).1 ∧
    (insertRows rows uf t).1.len = uf.len ∧
    tableWF uf.len sig (insertRows rows uf t).2 := by
  induction rows with
  | nil =>
    intro uf t sig hInv _ ht _
    exact ⟨hInv, rfl, ht⟩
  | cons row rest ih =>
    intro uf t sig hInv hsig ht hrows
    obtain ⟨det, dep⟩ := row
    have hrow := hrows (det, dep) (List.mem_cons_self _ _)
    have hio := insertOrMerge_wf hInv hsig ht hrow
    obtain ⟨hiInv, hilen, hitab⟩ := hio
    have hrest := ih (insertOrMerge uf t det dep).1
      (insertOrMerge uf t det dep).2.1 sig hiInv hsig
      (by rw [hilen]; exact hitab)
      (by intro r hr; rw [hilen]; exact hrows r (List.mem_cons_of_mem _ hr))
    obtain ⟨h1, h2, h3⟩ := hrest
    have hunf : insertRows ((det, dep) :: rest) uf t =
        insertRows rest (insertOrMerge uf t det dep).1
          (insertOrMerge uf t det dep).2.1 := rfl
    rw [hunf]
    exact ⟨h1, by rw [h2, hilen], by rw [← hilen]; exact h3⟩

/-- A full rebuild pass preserves the e-graph well-formedness (on the
same id space). -/
theorem rebuildPassTables_wf (ts : List (Signature × MTable)) :
    ∀ (uf : UnionFind), UnionFind.Inv uf →
    (∀ p ∈ ts, sigWF p.1 ∧ tableWF uf.len p.1 p.2) →
    UnionFind.Inv (rebuildPassTables ts uf).2.1 ∧
    (rebuildPassTables ts uf).2.1.len = uf.len ∧
    (∀ p ∈ (rebuildPassTables ts uf).1, sigWF p.1 ∧ tableWF uf.len p.1 p.2) := by
  induction ts with
  | nil =>
    intro uf hInv _
    exact ⟨hInv, rfl, fun p hp => absurd hp (List.not_mem_nil p)⟩
  | cons entry rest ih =>
    intro uf hInv hts
    obtain ⟨sig, t⟩ := entry
    obtain ⟨hsig, htab⟩ := hts (sig, t) (List.mem_cons_self _ _)
    have hcr := canonRows_wf t uf sig hInv hsig htab.1
    obtain ⟨hcInv, hclen, hcpres, hcsub, hcok⟩ := hcr
    have hkeptWF : tableWF (canonRows t uf sig).1.len sig
        (canonRows t uf sig).2.1 := by
      rw [hclen]
      exact ⟨fun r hr => htab.1 r (hcsub.mem hr),
        (htab.2.sublist (hcsub.map Prod.fst))⟩
    have hins := insertRows_wf (canonRows t uf sig).2.2.1
      (canonRows t uf sig).1 (canonRows t uf sig).2.1 sig hcInv hsig hkeptWF
      (by intro r hr; rw [hclen]; exact hcok r hr)
    obtain ⟨hiInv, hilen, hitab⟩ := hins
    have hrest := ih (insertRows (canonRows t uf sig).2.2.1
        (canonRows t uf sig).1 (canonRows t uf sig).2.1).1 hiInv
      (by
        intro p hp
        rw [hilen, hclen]
        exact hts p (List.mem_cons_of_mem _ hp))
    obtain ⟨hrInv, hrlen, hrtabs⟩ := hrest
    have hunf : rebuildPassTables ((sig, t) :: rest) uf =
        ((sig, (insertRows (canonRows t uf sig).2.2.1 (canonRows t uf sig).1
            (canonRows t uf sig).2.1).2) ::
          (rebuildPassTables rest (insertRows (canonRows t uf sig).2.2.1
            (canonRows t uf sig).1 (canonRows t uf sig).2.1).1).1,
          (rebuildPassTables rest (insertRows (canonRows t uf sig).2.2.1
            (canonRows t uf sig).1 (canonRows t uf sig).2.1).1).2.1,
          (canonRows t uf sig).2.2.2 ||
            (rebuildPassTables rest (insertRows (canonRows t uf sig).2.2.1
              (canonRows t uf sig).1 (canonRows t uf sig).2.1).1).2.2) := rfl
    rw [hunf]
    dsimp only
    refine ⟨hrInv, by rw [hrlen, hilen, hclen], ?_⟩
    intro p hp
    rcases List.mem_cons.mp hp with h | h
    · subst h
      refine ⟨hsig, ?_⟩
      dsimp only
      rw [← hclen]
      exact hitab
    · rw [show uf.len = (insertRows (canonRows t uf sig).2.2.1
          (canonRows t uf sig).1 (canonRows t uf sig).2.1).1.len from by
        rw [hilen, hclen]]
      exact hrtabs p h

/-- A rebuild pass that reports no change leaves the tables untouched,
preserves the partition, and leaves every class-id column equal to its
own representative. -/
theorem rebuildPassTables_false (ts : List (Signature × MTable)) :
    ∀ (uf : UnionFind), UnionFind.Inv uf →
    (∀ p ∈ ts, sigWF p.1 ∧ tableWF uf.len p.1 p.2) →
    (rebuildPassTables ts uf).2.2 = false →
    (rebuildPassTables ts uf).1 = ts ∧
    UnionFind.Inv (rebuildPassTables ts uf).2.1 ∧
    (rebuildPassTables ts uf).2.1.len = uf.len ∧
    RootsPreserved uf (rebuildPassTables ts uf).2.1 ∧
    (∀ p ∈ ts, ∀ r ∈ p.2, ∀ c ∈ maskOnes p.1.classIdMask,
      (rebuildPassTables ts uf).2.1.par (colVal r.1 r.2 c)
        = colVal r.1 r.2 c) := by
  induction ts with
  | nil =>
    intro uf hInv _ _
    exact ⟨rfl, hInv, rfl, rootsPreserved_refl uf,
      fun p hp => absurd hp (List.not_mem_nil p)⟩
  | cons entry rest ih =>
    intro uf hInv hts hflag
    obtain ⟨sig, t⟩ := entry
    obtain ⟨hsig, htab⟩ := hts (sig, t) (List.mem_cons_self _ _)
    have hunf : rebuildPassTables ((sig, t) :: rest) uf =
        ((sig, (insertRows (canonRows t uf sig).2.2.1 (canonRows t uf sig).1
            (canonRows t uf sig).2.1).2) ::
          (rebuildPassTables rest (insertRows (canonRows t uf sig).2.2.1
            (canonRows t uf sig).1 (canonRows t uf sig).2.1).1).1,
          (rebuildPassTables rest (insertRows (canonRows t uf sig).2.2.1
            (canonRows t uf sig).1 (canonRows t uf sig).2.1).1).2.1,
          (canonRows t uf sig).2.2.2 ||
            (rebuildPassTables rest (insertRows (canonRows t uf sig).2.2.1
              (canonRows t uf sig).1 (canonRows t uf sig).2.1).1).2.2) := rfl
    rw [hunf] at hflag ⊢
    dsimp only at hflag ⊢
    rw [Bool.or_eq_false_iff] at hflag
    obtain ⟨hfl1, hfl2⟩ := hflag
    have hcf := canonRows_false t uf sig hInv hsig htab.1 hfl1
    obtain ⟨hkept, hchg, hcInv, hclen, hcpres, hcroots⟩ := hcf
    rw [hchg, hkept] at hfl2 ⊢
    have hins : insertRows [] (canonRows t uf sig).1 t
        = ((canonRows t uf sig).1, t) := rfl
    rw [hins] at hfl2 ⊢
    dsimp only at hfl2 ⊢
    have hrest := ih (canonRows t uf sig).1 hcInv
      (by
        intro p hp
        rw [hclen]
        exact hts p (List.mem_cons_of_mem _ hp)) hfl2
    obtain ⟨htabs, hrInv, hrlen, hrpres, hrroots⟩ := hrest
    refine ⟨by rw [htabs], hrInv, by rw [hrlen, hclen], ?_, ?_⟩
    · exact rootsPreserved_trans hcpres hrpres hclen
    · intro p hp r hr c hc
      rcases List.mem_cons.mp hp with h | h
      · subst h
        have hfix := hcroots r hr c hc
        have hval : colVal r.1 r.2 c < uf.len := (htab.1 r hr).2.2 c hc
        exact isRoot_preserved hrpres hrInv (by rw [hclen]; exact hval)
          (by rw [hrlen, hclen]; exact hval) hfix
      · exact hrroots p h r hr c hc

/-- Once a pass has changed something, `rebuild` reports `true`. -/
theorem rebuildLoop_ever (fuel : Nat) : ∀ (g g' : EGraph) (b : Bool),
    rebuildLoop fuel g true = some (g', b) → b = true := by
  induction fuel with
  | zero => intro g g' b h; exact Option.noConfusion h
  | succ fuel ih =>
    intro g g' b h
    rw [rebuildLoop] at h
    by_cases hp : (rebuildPassTables g.tables g.uf).2.2
    · rw [if_pos hp] at h
      exact ih _ g' b h
    · rw [if_neg hp] at h
      simp only [Option.some.injEq, Prod.mk.injEq] at h
      exact h.2.symm

/-- A `rebuild` returning `false` means its very first pass changed
nothing, and the result state is that single pass's output. -/
theorem rebuildLoop_false (fuel : Nat) : ∀ (g : EGraph) (ever : Bool)
    (g' : EGraph), rebuildLoop fuel g ever = some (g', false) →
    (rebuildPassTables g.tables g.uf).2.2 = false ∧
    g' = ⟨(rebuildPassTables g.tables g.uf).1,
      (rebuildPassTables g.tables g.uf).2.1⟩ := by
  intro g ever g' h
  cases fuel with
  | zero => exact Option.noConfusion h
  | succ fuel =>
    rw [rebuildLoop] at h
    by_cases hp : (rebuildPassTables g.tables g.uf).2.2
    · rw [if_pos hp] at h
      have := rebuildLoop_ever fuel _ g' false h
      exact Bool.noConfusion this
    · rw [if_neg hp] at h
      simp only [Option.some.injEq, Prod.mk.injEq] at h
      exact ⟨by simpa using hp, h.1.symm⟩

/-- `rebuild` preserves well-formedness and the id space. -/
theorem rebuildLoop_wf (fuel : Nat) : ∀ (g : EGraph) (ever : Bool)
    (g' : EGraph) (b : Bool), rebuildLoop fuel g ever = some (g', b) →
    EGraph.WF g → EGraph.WF g' ∧ g'.uf.len = g.uf.len := by
  induction fuel with
  | zero => intro g ever g' b h _; exact Option.noConfusion h
  | succ fuel ih =>
    intro g ever g' b h hwf
    obtain ⟨hInv, htabs⟩ := hwf
    have hpass := rebuildPassTables_wf g.tables g.uf hInv htabs
    obtain ⟨hpInv, hplen, hptabs⟩ := hpass
    rw [rebuildLoop] at h
    by_cases hp : (rebuildPassTables g.tables g.uf).2.2
    · rw [if_pos hp] at h
      have hwf' : EGraph.WF ⟨(rebuildPassTables g.tables g.uf).1,
          (rebuildPassTables g.tables g.uf).2.1⟩ := by
        refine ⟨hpInv, ?_⟩
        intro p hpmem
        rw [hplen]
        exact hptabs p hpmem
      have := ih _ true g' b h hwf'
      exact ⟨this.1, by rw [this.2]; exact hplen⟩
    · rw [if_neg hp] at h
      simp only [Option.some.injEq, Prod.mk.injEq] at h
      obtain ⟨heq, -⟩ := h
      subst heq
      refine ⟨⟨hpInv, ?_⟩, hplen⟩
      intro p hpmem
      rw [hplen]
      exact hptabs p hpmem

theorem corebuildRows_wf (t : MTable) : ∀ (last : UnionFind) (sig : Signature),
    UnionFind.Inv last → sigWF sig → (∀ r ∈ t, rowWF last.len sig r) →
    UnionFind.Inv (corebuildRows t last sig).1 ∧
    (corebuildRows t last sig).1.len = last.len ∧
    (∀ p ∈ (corebuildRows t last sig).2, p.2 < last.len) := by
  induction t with
  | nil =>
    intro last sig hInv _ _
    exact ⟨hInv, rfl, fun p hp => absurd hp (List.not_mem_nil p)⟩
  | cons row rest ih =>
    intro last sig hInv hsig hrows
    obtain ⟨det, dep⟩ := row
    have hrow := hrows (det, dep) (List.mem_cons_self _ _)
    have hc := canonicalize_spec hInv hsig hrow
    obtain ⟨hcInv, hclen, -, -, -⟩ := hc
    have hrest := ih (canonicalize last det dep sig).1 sig hcInv hsig
      (by intro r hr; rw [hclen]; exact hrows r (List.mem_cons_of_mem _ hr))
    obtain ⟨hrInv, hrlen, hrbound⟩ := hrest
    have hunf : corebuildRows ((det, dep) :: rest) last sig =
        ((corebuildRows rest (canonicalize last det dep sig).1 sig).1,
          ((canonicalize last det dep sig).2.1, dep.headD 0) ::
            (corebuildRows rest (canonicalize last det dep sig).1 sig).2) := rfl
    rw [hunf]
    dsimp only
    refine ⟨hrInv, by rw [hrlen, hclen], ?_⟩
    intro p hp
    rcases List.mem_cons.mp hp with h | h
    · subst h
      exact rowWF_dep_head hsig hrow
    · rw [← hclen]
      exact hrbound p h

theorem groupAdd_bound (gs : List (List Nat × List Nat)) :
    ∀ {det : List Nat} {root n : Nat},
    (∀ g ∈ gs, ∀ r ∈ g.2, r < n) → root < n →
    ∀ g ∈ groupAdd gs det root, ∀ r ∈ g.2, r < n := by
  induction gs with
  | nil =>
    intro det root n _ hroot g hg r hr
    rw [groupAdd] at hg
    rcases List.mem_singleton.mp hg with h
    subst h
    rcases List.mem_singleton.mp hr with h
    subst h
    exact hroot
  | cons entry rest ih =>
    intro det root n hgs hroot g hg r hr
    obtain ⟨d, roots⟩ := entry
    rw [groupAdd] at hg
    by_cases hd : d = det
    · rw [if_pos hd] at hg
      rcases List.mem_cons.mp hg with h | h
      · subst h
        rcases List.mem_append.mp hr with h2 | h2
        · exact hgs (d, roots) (List.mem_cons_self _ _) r h2
        · rw [List.mem_singleton.mp h2]
          exact hroot
      · exact hgs g (List.mem_cons_of_mem _ h) r hr
    · rw [if_neg hd] at hg
      rcases List.mem_cons.mp hg with h | h
      · subst h
        exact hgs (d, roots) (List.mem_cons_self _ _) r hr
      · exact ih (fun g2 hg2 => hgs g2 (List.mem_cons_of_mem _ hg2)) hroot
          g h r hr

theorem groupByDet_bound (pairs : List (List Nat × Nat)) :
    ∀ {gs : List (List Nat × List Nat)} {n : Nat},
    (∀ p ∈ pairs, p.2 < n) → (∀ g ∈ gs, ∀ r ∈ g.2, r < n) →
    ∀ g ∈ groupByDet pairs gs, ∀ r ∈ g.2, r < n := by
  induction pairs with
  | nil => intro gs n _ hgs; exact hgs
  | cons pair rest ih =>
    intro gs n hpairs hgs
    obtain ⟨det, root⟩ := pair
    have hga := @groupAdd_bound gs det root n hgs
      (hpairs (det, root) (List.mem_cons_self _ _))
    exact ih (fun p hp => hpairs p (List.mem_cons_of_mem _ hp)) hga

theorem foldl_merge_wf (tail : List Nat) : ∀ (next : UnionFind) (head : Nat),
    UnionFind.Inv next → head < next.len → (∀ r ∈ tail, r < next.len) →
    UnionFind.Inv (tail.foldl (fun u r => (u.merge head r).1) next) ∧
    (tail.foldl (fun u r => (u.merge head r).1) next).len = next.len := by
  induction tail with
  | nil => intro next head hInv _ _; exact ⟨hInv, rfl⟩
  | cons r rest ih =>
    intro next head hInv hhead htail
    have hr := htail r (List.mem_cons_self _ _)
    obtain ⟨hmInv, hmlen⟩ := UnionFind.merge_inv hInv hhead hr
    have := ih (next.merge head r).1 head hmInv (by rw [hmlen]; exact hhead)
      (by intro s hs; rw [hmlen]; exact htail s (List.mem_cons_of_mem _ hs))
    rw [List.foldl_cons]
    exact ⟨this.1, by rw [this.2, hmlen]⟩

theorem mergeRoots_wf {next : UnionFind} {roots : List Nat}
    (hInv : UnionFind.Inv next) (hb : ∀ r ∈ roots, r < next.len) :
    UnionFind.Inv (mergeRoots next roots) ∧
    (mergeRoots next roots).len = next.len := by
  cases roots with
  | nil => exact ⟨hInv, rfl⟩
  | cons head tail =>
    rw [mergeRoots]
    exact foldl_merge_wf tail next head hInv (hb head (List.mem_cons_self _ _))
      (fun r hr => hb r (List.mem_cons_of_mem _ hr))

theorem foldl_groups_wf (groups : List (List Nat × List Nat)) :
    ∀ (next : UnionFind), UnionFind.Inv next →
    (∀ g ∈ groups, ∀ r ∈ g.2, r < next.len) →
    UnionFind.Inv (groups.foldl (fun u g => mergeRoots u g.2) next) ∧
    (groups.foldl (fun u g => mergeRoots u g.2) next).len = next.len := by
  induction groups with
  | nil => intro next hInv _; exact ⟨hInv, rfl⟩
  | cons g rest ih =>
    intro next hInv hgs
    obtain ⟨hmInv, hmlen⟩ := mergeRoots_wf hInv (hgs g (List.mem_cons_self _ _))
    have := ih (mergeRoots next g.2) hmInv
      (by intro g2 hg2 r hr; rw [hmlen]; exact hgs g2 (List.mem_cons_of_mem _ hg2) r hr)
    rw [List.foldl_cons]
    exact ⟨this.1, by rw [this.2, hmlen]⟩

theorem corebuildTables_wf (ts : List (Signature × MTable)) :
    ∀ (last next : UnionFind), UnionFind.Inv last → UnionFind.Inv next →
    next.len = last.len →
    (∀ p ∈ ts, sigWF p.1 ∧ ∀ r ∈ p.2, rowWF last.len p.1 r) →
    UnionFind.Inv (corebuildTables ts last next).1 ∧
    (corebuildTables ts last next).1.len = last.len ∧
    UnionFind.Inv (corebuildTables ts last next).2 ∧
    (corebuildTables ts last next).2.len = last.len := by
  induction ts with
  | nil =>
    intro last next hInvL hInvN hlen _
    exact ⟨hInvL, rfl, hInvN, hlen⟩
  | cons entry rest ih =>
    intro last next hInvL hInvN hlen hts
    obtain ⟨sig, t⟩ := entry
    obtain ⟨hsig, hrows⟩ := hts (sig, t) (List.mem_cons_self _ _)
    have hcr := corebuildRows_wf t last sig hInvL hsig hrows
    obtain ⟨hcInv, hclen, hcbound⟩ := hcr
    have hgb := groupByDet_bound (corebuildRows t last sig).2
      (fun p hp => hcbound p hp)
      (fun g hg => absurd hg (List.not_mem_nil g))
    have hfg := foldl_groups_wf (groupByDet (corebuildRows t last sig).2 [])
      next hInvN (by intro g hg r hr; rw [hlen]; exact hgb g hg r hr)
    obtain ⟨hfInv, hflen⟩ := hfg
    have hrest := ih (corebuildRows t last sig).1
      ((groupByDet (corebuildRows t last sig).2 []).foldl
        (fun u g => mergeRoots u g.2) next) hcInv hfInv
      (by rw [hflen, hlen, hclen])
      (by
        intro p hp
        rw [hclen]
        exact hts p (List.mem_cons_of_mem _ hp))
    have hunf : corebuildTables ((sig, t) :: rest) last next =
        corebuildTables rest (corebuildRows t last sig).1
          ((groupByDet (corebuildRows t last sig).2 []).foldl
            (fun u g => mergeRoots u g.2) next) := rfl
    rw [hunf]
    obtain ⟨h1, h2, h3, h4⟩ := hrest
    exact ⟨h1, by rw [h2, hclen], h3, by rw [h4, hclen]⟩

theorem corebuildLoop_wf (fuel : Nat) : ∀ (ts : List (Signature × MTable))
    (last next : UnionFind) (out : UnionFind),
    corebuildLoop fuel ts last next = some out →
    UnionFind.Inv last → UnionFind.Inv next → next.len = last.len →
    (∀ p ∈ ts, sigWF p.1 ∧ ∀ r ∈ p.2, rowWF last.len p.1 r) →
    UnionFind.Inv out ∧ out.len = last.len := by
  induction fuel with
  | zero => intro ts last next out h; exact Option.noConfusion h
  | succ fuel ih =>
    intro ts last next out h hInvL hInvN hlen hts
    rw [corebuildLoop] at h
    have hct := corebuildTables_wf ts last next hInvL hInvN hlen hts
    obtain ⟨h1, h2, h3, h4⟩ := hct
    by_cases heq : ufEqb (corebuildTables ts last next).1
        (corebuildTables ts last next).2
    · rw [if_pos heq] at h
      have hout := Option.some_injective _ h
      subst hout
      exact ⟨h1, h2⟩
    · rw [if_neg heq] at h
      have hall : UnionFind.Inv (corebuildTables ts last next).2.setAllNotEquals := by
        intro i hi
        exact le_refl i
      have := ih ts (corebuildTables ts last next).2
        (corebuildTables ts last next).2.setAllNotEquals out h h3 hall rfl
        (by
          intro p hp
          rw [h4]
          exact hts p hp)
      exact ⟨this.1, by rw [this.2, h4]⟩

theorem corebuildFinalGo_wf (ids : List Nat) : ∀ (last guf : UnionFind),
    UnionFind.Inv last → UnionFind.Inv guf →
    (∀ id ∈ ids, id < last.len ∧ id < guf.len) →
    ∀ (chg : Bool),
    UnionFind.Inv (corebuildFinalGo ids last guf chg).2.1 ∧
    (corebuildFinalGo ids last guf chg).2.1.len = guf.len := by
  induction ids with
  | nil => intro last guf _ hInvG _ chg; exact ⟨hInvG, rfl⟩
  | cons id rest ih =>
    intro last guf hInvL hInvG hids chg
    obtain ⟨hidL, hidG⟩ := hids id (List.mem_cons_self _ _)
    have hf1Inv := find_inv hInvL hidL
    have hf1len := UnionFind.reachable_find_len hInvL hidL
    have hcanon : (last.find id).2 ≤ id := find_le hInvL hidL
    have hf2Inv := find_inv hInvG hidG
    have hf2len := UnionFind.reachable_find_len hInvG hidG
    have hcanonG : (last.find id).2 < (guf.find id).1.len := by
      rw [hf2len]; omega
    have hf3Inv := find_inv hf2Inv hcanonG
    have hf3len := UnionFind.reachable_find_len hf2Inv hcanonG
    have hidG3 : id < ((guf.find id).1.find (last.find id).2).1.len := by
      rw [hf3len, hf2len]; exact hidG
    have hcanonG3 : (last.find id).2 < ((guf.find id).1.find (last.find id).2).1.len := by
      rw [hf3len]; exact hcanonG
    obtain ⟨hmInv, hmlen⟩ := UnionFind.merge_inv hf3Inv hidG3 hcanonG3
    have hrest := ih (last.find id).1
      (((guf.find id).1.find (last.find id).2).1.merge id (last.find id).2).1
      hf1Inv hmInv
      (by
        intro i hi
        obtain ⟨hiL, hiG⟩ := hids i (List.mem_cons_of_mem _ hi)
        rw [hf1len, hmlen, hf3len, hf2len]
        exact ⟨hiL, hiG⟩)
      (decide ¬((guf.find id).2 = ((guf.find id).1.find (last.find id).2).2) || chg)
    have hunf : corebuildFinalGo (id :: rest) last guf chg =
        corebuildFinalGo rest (last.find id).1
          (((guf.find id).1.find (last.find id).2).1.merge id (last.find id).2).1
          (decide ¬((guf.find id).2 = ((guf.find id).1.find (last.find id).2).2) || chg) := rfl
    rw [hunf]
    exact ⟨hrest.1, by rw [hrest.2, hmlen, hf3len, hf2len]⟩

/-- `corebuild` leaves the tables untouched and preserves the union-find
invariant and the id space. -/
theorem corebuild_wf {fuel : Nat} {g g₁ : EGraph} {ch : Bool}
    (h : EGraph.corebuild fuel g = some (g₁, ch)) (hwf : EGraph.WF g) :
    g₁.tables = g.tables ∧ UnionFind.Inv g₁.uf ∧ g₁.uf.len = g.uf.len := by
  obtain ⟨hInv, htabs⟩ := hwf
  rw [EGraph.corebuild] at h
  cases hloop : corebuildLoop fuel g.tables
      (UnionFind.newAllEquals g.uf.numClasses)
      (UnionFind.newAllNotEquals g.uf.numClasses) with
  | none => rw [hloop] at h; exact Option.noConfusion h
  | some last =>
    rw [hloop] at h
    dsimp only at h
    have hInvAE : UnionFind.Inv (UnionFind.newAllEquals g.uf.numClasses) := by
      intro i _; exact Nat.zero_le i
    have hInvANE : UnionFind.Inv (UnionFind.newAllNotEquals g.uf.numClasses) := by
      intro i _; exact le_refl i
    have hlast := corebuildLoop_wf fuel g.tables _ _ last hloop hInvAE hInvANE rfl
      (by
        intro p hp
        exact ⟨(htabs p hp).1, fun r hr => (htabs p hp).2.1 r hr⟩)
    obtain ⟨hInvLast, hlenLast⟩ := hlast
    have hfin := corebuildFinalGo_wf (List.range g.uf.numClasses) last g.uf
      hInvLast hInv
      (by
        intro id hid
        rw [List.mem_range] at hid
        exact ⟨by rw [hlenLast]; exact hid, hid⟩) false
    simp only [Option.some.injEq, Prod.mk.injEq] at h
    obtain ⟨hg, -⟩ := h
    subst hg
    exact ⟨rfl, hfin.1, hfin.2⟩

/-- The canonical determinant of a row under a fixed union-find: every
class-id determinant column replaced by its representative.  This is the
pure (state-independent) reading of what `canonicalize` computes for the
determinant columns. -/
def canonDetPure (uf : UnionFind) (sig : Signature) (det : List Nat) :
    List Nat :=
  (List.range det.length).map (fun c =>
    if sig.classIdMask.getD c false then (uf.find (det.getD c 0)).2
    else det.getD c 0)

/-- When every class-id column of a row is already its own
representative, the canonical determinant is the determinant itself. -/
theorem canonDetPure_fixed {uf : UnionFind} {sig : Signature}
    {det dep : List Nat}
    (h : ∀ c ∈ maskOnes sig.classIdMask,
      uf.par (colVal det dep c) = colVal det dep c) :
    canonDetPure uf sig det = det := by
  apply List.ext_getElem
  · simp [canonDetPure]
  · intro n h1 h2
    have hn : n < det.length := h2
    simp only [canonDetPure, List.getElem_map, List.getElem_range]
    have hdn : det.getD n 0 = det[n] := by
      simp [List.getD, List.getElem?_eq_getElem hn]
    by_cases hm : sig.classIdMask.getD n false
    · have hmem : n ∈ maskOnes sig.classIdMask := mem_maskOnes_of_getD hm
      have hfix := h n hmem
      rw [colVal, if_pos hn] at hfix
      rw [if_pos hm, find_of_root hfix, ← hdn]
    · rw [if_neg hm, hdn]

/-- The core of the full-repair postcondition: a successful
`full_repair` ends in a well-formed state whose rows have all their
class-id columns equal to their own representatives. -/
theorem fullRepairLoop_spec (fuel : Nat) : ∀ (innerFuel : Nat) (g : EGraph)
    (chg : Bool) (g' : EGraph) (ch : Bool),
    fullRepairLoop fuel innerFuel g chg = some (g', ch) → EGraph.WF g →
    EGraph.WF g' ∧
    (∀ p ∈ g'.tables, ∀ r ∈ p.2, ∀ c ∈ maskOnes p.1.classIdMask,
      g'.uf.par (colVal r.1 r.2 c) = colVal r.1 r.2 c) := by
  induction fuel with
  | zero => intro innerFuel g chg g' ch h _; exact Option.noConfusion h
  | succ fuel ih =>
    intro innerFuel g chg g' ch h hwf
    rw [fullRepairLoop] at h
    cases hcb : EGraph.corebuild innerFuel g with
    | none => rw [hcb] at h; exact Option.noConfusion h
    | some res =>
      obtain ⟨g₁, ch₁⟩ := res
      rw [hcb] at h
      dsimp only at h
      have hcwf := corebuild_wf hcb hwf
      obtain ⟨htabs₁, hInv₁, hlen₁⟩ := hcwf
      have hwf₁ : EGraph.WF g₁ := by
        refine ⟨hInv₁, ?_⟩
        intro p hp
        rw [htabs₁] at hp
        rw [hlen₁]
        exact hwf.2 p hp
      cases hrb : EGraph.rebuild innerFuel g₁ with
      | none => rw [hrb] at h; exact Option.noConfusion h
      | some res2 =>
        obtain ⟨g₂, ch₂⟩ := res2
        rw [hrb] at h
        dsimp only at h
        cases ch₂ with
        | true =>
          rw [if_pos rfl] at h
          have hwf₂ := (rebuildLoop_wf innerFuel g₁ false g₂ true hrb hwf₁).1
          exact ih innerFuel g₂ true g' ch h hwf₂
        | false =>
          rw [if_neg (Bool.false_ne_true)] at h
          simp only [Option.some.injEq, Prod.mk.injEq] at h
          obtain ⟨hg, -⟩ := h
          subst hg
          have hfalse := rebuildLoop_false innerFuel g₁ false g₂ hrb
          obtain ⟨hpass, hgeq⟩ := hfalse
          have hpf := rebuildPassTables_false g₁.tables g₁.uf hwf₁.1
            hwf₁.2 hpass
          obtain ⟨hptabs, hpInv, hplen, hppres, hproots⟩ := hpf
          have hwf' := (rebuildLoop_wf innerFuel g₁ false g₂ false hrb hwf₁).1
          refine ⟨hwf', ?_⟩
          intro p hp r hr c hc
          rw [hgeq]
          dsimp only
          rw [hgeq] at hp
          dsimp only at hp
          rw [hptabs] at hp
          exact hproots p hp r hr c hc

/-- C1: after a terminating `EGraph::full_repair`, every class-id column
of every live row (as marked by its signature's mask) equals its
union-find representative, and any two rows of the same signature whose
determinants agree after canonicalization have UF-equal dependent roots:
`full_repair` reaches a congruence-closure fixpoint. -/
theorem full_repair_congruence {fuel : Nat} {g g' : EGraph} {ch : Bool}
    (hwf : EGraph.WF g) (h : EGraph.fullRepair fuel g = some (g', ch)) :
    (∀ p ∈ g'.tables, ∀ r ∈ p.2, ∀ c ∈ maskOnes p.1.classIdMask,
      (g'.uf.find (colVal r.1 r.2 c)).2 = colVal r.1 r.2 c) ∧
    (∀ p ∈ g'.tables, ∀ r₁ ∈ p.2, ∀ r₂ ∈ p.2,
      canonDetPure g'.uf p.1 r₁.1 = canonDetPure g'.uf p.1 r₂.1 →
      (g'.uf.find (r₁.2.headD 0)).2 = (g'.uf.find (r₂.2.headD 0)).2) := by
  have hspec := fullRepairLoop_spec fuel fuel g false g' ch h hwf
  obtain ⟨hwf', hroots⟩ := hspec
  constructor
  · intro p hp r hr c hc
    rw [find_of_root (hroots p hp r hr c hc)]
  · intro p hp r₁ h1 r₂ h2 hdet
    have hnodup := (hwf'.2 p hp).2.2
    have hc1 : canonDetPure g'.uf p.1 r₁.1 = r₁.1 :=
      canonDetPure_fixed (fun c hc => hroots p hp r₁ h1 c hc)
    have hc2 : canonDetPure g'.uf p.1 r₂.1 = r₂.1 :=
      canonDetPure_fixed (fun c hc => hroots p hp r₂ h2 c hc)
    have hdets : r₁.1 = r₂.1 := by rw [← hc1, ← hc2]; exact hdet
    have hrows : r₁ = r₂ := List.inj_on_of_nodup_map hnodup h1 h2 hdets
    rw [hrows]

/-- The signature of a one-determinant constant node (mask marks only the
dependent root column), as in the `Term::Constant` signature. -/
def sigConst : Signature := ⟨[false, true], 1, 1, 0⟩

/-- The signature of a binary node whose two determinant columns and the
dependent root are all class ids, as in the `Term::Add` signature. -/
def sigAdd : Signature := ⟨[true, true, true], 2, 1, 1⟩

/-- An e-graph with two live ids and the row `Constant(5) -> 1`. -/
def egC3 : EGraph :=
  let g0 : EGraph := ⟨[], UnionFind.new⟩
  let m0 := g0.makeset
  let m1 := m0.1.makeset
  (m1.1.insertRow sigConst [5] [1]).1

/-- C3 counterexample: inserting `Constant(5)` with declared root 0 into
`egC3` finds the determinant already present with root 1; the merge of 0
and 1 makes 0 the surviving minimum root, yet `insert` returns the
pre-existing root 1, not the surviving root 0. -/
theorem insert_returns_preexisting_counterexample :
    (egC3.insertRow sigConst [5] [0]).2 = 1 ∧
    (egC3.uf.merge 0 1).2 = 0 ∧ (1 : Nat) ≠ 0 := by
  refine ⟨?_, ?_, ?_⟩ <;> decide

/-- C3 (amended): when the canonicalized determinant is already present
in the signature's table, `EGraph::insert` merges the canonicalized
declared root with the pre-existing row's root in the union-find but
returns the pre-existing row's root (not necessarily the surviving
minimum of that merge); when the determinant is new the row is interned
and the canonicalized declared root is returned. -/
theorem insertRow_merges_or_interns (g : EGraph) (sig : Signature)
    (det dep : List Nat) :
    (∀ newDep, tableLookup ((tablesLookup g.tables sig).getD [])
        (canonicalize g.uf det dep sig).2.1 = some newDep →
      (g.insertRow sig det dep).2 = newDep.headD 0 ∧
      (g.insertRow sig det dep).1.uf =
        ((canonicalize g.uf det dep sig).1.merge
          ((canonicalize g.uf det dep sig).2.2.1.headD 0)
          (newDep.headD 0)).1) ∧
    (tableLookup ((tablesLookup g.tables sig).getD [])
        (canonicalize g.uf det dep sig).2.1 = none →
      (g.insertRow sig det dep).2 =
        (canonicalize g.uf det dep sig).2.2.1.headD 0) := by
  constructor
  · intro newDep hfound
    cases htl : tablesLookup g.tables sig with
    | some t =>
      rw [htl] at hfound
      dsimp only [Option.getD] at hfound
      have hunf : g.insertRow sig det dep =
          (⟨updateTables g.tables sig
              (insertOrMerge (canonicalize g.uf det dep sig).1 t
                (canonicalize g.uf det dep sig).2.1
                (canonicalize g.uf det dep sig).2.2.1).2.1,
            (insertOrMerge (canonicalize g.uf det dep sig).1 t
              (canonicalize g.uf det dep sig).2.1
              (canonicalize g.uf det dep sig).2.2.1).1⟩,
            (insertOrMerge (canonicalize g.uf det dep sig).1 t
              (canonicalize g.uf det dep sig).2.1
              (canonicalize g.uf det dep sig).2.2.1).2.2) := by
        rw [EGraph.insertRow, htl]
      rw [hunf]
      dsimp only
      rw [insertOrMerge, tableInsert, hfound]
      exact ⟨rfl, rfl⟩
    | none =>
      rw [htl] at hfound
      dsimp only [Option.getD] at hfound
      rw [show tableLookup [] (canonicalize g.uf det dep sig).2.1 = none
        from rfl] at hfound
      exact Option.noConfusion hfound
  · intro hnone
    cases htl : tablesLookup g.tables sig with
    | some t =>
      rw [htl] at hnone
      dsimp only [Option.getD] at hnone
      have hunf : g.insertRow sig det dep =
          (⟨updateTables g.tables sig
              (insertOrMerge (canonicalize g.uf det dep sig).1 t
                (canonicalize g.uf det dep sig).2.1
                (canonicalize g.uf det dep sig).2.2.1).2.1,
            (insertOrMerge (canonicalize g.uf det dep sig).1 t
              (canonicalize g.uf det dep sig).2.1
              (canonicalize g.uf det dep sig).2.2.1).1⟩,
            (insertOrMerge (canonicalize g.uf det dep sig).1 t
              (canonicalize g.uf det dep sig).2.1
              (canonicalize g.uf det dep sig).2.2.1).2.2) := by
        rw [EGraph.insertRow, htl]
      rw [hunf]
      dsimp only
      rw [insertOrMerge, tableInsert, hnone]
    | none =>
      have hunf : g.insertRow sig det dep =
          (⟨g.tables ++ [(sig, (insertOrMerge (canonicalize g.uf det dep sig).1 []
              (canonicalize g.uf det dep sig).2.1
              (canonicalize g.uf det dep sig).2.2.1).2.1)],
            (insertOrMerge (canonicalize g.uf det dep sig).1 []
              (canonicalize g.uf det dep sig).2.1
              (canonicalize g.uf det dep sig).2.2.1).1⟩,
            (insertOrMerge (canonicalize g.uf det dep sig).1 []
              (canonicalize g.uf det dep sig).2.1
              (canonicalize g.uf det dep sig).2.2.1).2.2) := by
        rw [EGraph.insertRow, htl]
      rw [hunf]
      dsimp only
      rw [insertOrMerge, tableInsert,
        show tableLookup [] (canonicalize g.uf det dep sig).2.1 = none from rfl]

theorem insertRow_merges_or_interns_witness :
    (egC3.insertRow sigConst [5] [0]).2 = 1 ∧
    ((egC3.makeset.1).insertRow sigConst [7] [2]).2 = 2 :=
  ⟨Eq.trans ((insertRow_merges_or_interns egC3 sigConst [5] [0]).1
      [1] (by decide)).1 (by decide),
   Eq.trans ((insertRow_merges_or_interns egC3.makeset.1 sigConst [7] [2]).2
      (by decide)) (by decide)⟩

/-- A small e-graph exercising a congruence: two binary rows whose
determinants become equal once ids 0 and 1 are merged. -/
def egC1 : EGraph :=
  let g0 : EGraph := ⟨[], UnionFind.new⟩
  let m0 := g0.makeset
  let m1 := m0.1.makeset
  let m2 := m1.1.makeset
  let m3 := m2.1.makeset
  let i0 := m3.1.insertRow sigAdd [0, 0] [2]
  let i1 := i0.1.insertRow sigAdd [1, 1] [3]
  (i1.1.merge 0 1).1

/-- The state after a terminating full repair of `egC1`. -/
def egC1res : EGraph × Bool := (EGraph.fullRepair 5 egC1).getD (egC1, false)

/-- The first table and its first row after the repair. -/
def egC1entry : Signature × MTable := egC1res.1.tables.headD (sigAdd, [])

def egC1row : List Nat × List Nat := egC1entry.2.headD ([], [])

theorem full_repair_congruence_witness :
    (egC1res.1.uf.find (colVal egC1row.1 egC1row.2 2)).2
      = colVal egC1row.1 egC1row.2 2 :=
  (@full_repair_congruence 5 egC1 egC1res.1 egC1res.2
    (by unfold EGraph.WF UnionFind.Inv sigWF tableWF rowWF; decide) rfl).1
    egC1entry (by decide) egC1row (by decide) 2 (by decide)

/-!
Part 5: the ESSA domain of src/ai/src/essa.rs.  The inner abstract domain
(the `AD` type parameter of `ESSADomain`) is represented by its state type
`σ` together with the record of operations the ESSA layer invokes on it;
the shared e-graph, parameter counter and static-phi table (`RefCell`s in
the source) are threaded in and out of each operation explicitly.
-/

namespace ai

/-- The operations of the inner `AbstractDomain` used by the ESSA
wrapper (variable keys are class ids, modelled as `Nat`). -/
structure ADOps (σ V : Type) where
  lookup : σ → Nat → V
  assign : σ → Nat → V → σ
  joinOp : σ → σ → Nat → σ
  widenOp : σ → σ → Nat → σ

/-- Models the no-op `impl AbstractDomain for ()`. -/
def unitADOps : ADOps Unit Unit :=
  ⟨fun _ _ => (), fun s _ _ => s, fun s _ _ => s, fun s _ _ => s⟩

/-- Models `ESSADomain { var_to_val, ad, .. }`: the variable-to-class
map (sorted pair list for the `BTreeMap`) and the inner domain state. -/
structure ESSADomain (σ : Type) where
  varToVal : List (Nat × Nat)
  ad : σ

/-- The signature of `Term::Phi` from essa.rs. -/
def phiSig : Signature := ⟨[false, true, true, true], 3, 1, 2⟩

/-- The per-variable loop of `ESSADomain::join` over the intersection of
the two variable maps. -/
def essaJoinGo {σ V : Type} (ops : ADOps σ V) (uid : Nat) :
    List (Nat × Nat × Nat) → σ → σ → EGraph →
    List (Nat × Nat) × σ × σ × EGraph
  | [], selfAd, otherAd, g => ([], selfAd, otherAd, g)
  | (var, sv, ov) :: rest, selfAd, otherAd, g =>
    if sv = ov then
      let r := essaJoinGo ops uid rest selfAd otherAd g
      ((var, sv) :: r.1, r.2.1, r.2.2.1, r.2.2.2)
    else
      let m := g.makeset
      let selfAd' := ops.assign selfAd m.2 (ops.lookup selfAd sv)
      let otherAd' := ops.assign otherAd m.2 (ops.lookup otherAd ov)
      let ins := m.1.insertRow phiSig [uid, sv, ov] [m.2]
      let r := essaJoinGo ops uid rest selfAd' otherAd' ins.1
      ((var, ins.2) :: r.1, r.2.1, r.2.2.1, r.2.2.2)

/-- Models `ESSADomain::join` at site `uid`: variables bound to the same
class on both sides are kept, differing ones get a fresh interned
`Phi(uid, left, right, root)` node, and the inner states are joined. -/
def ESSADomain.join {σ V : Type} (ops : ADOps σ V) (a b : ESSADomain σ)
    (uid : Nat) (g : EGraph) : ESSADomain σ × EGraph :=
  let go := essaJoinGo ops uid (intersectMaps a.varToVal b.varToVal)
    a.ad b.ad g
  (⟨go.1, ops.joinOp go.2.1 go.2.2.1 uid⟩, go.2.2.2)

/-- Accumulator of the `ESSADomain::widen` per-variable loop. -/
structure WidenAcc (σ : Type) where
  vars : List (Nat × Nat)
  selfAd : σ
  otherAd : σ
  graph : EGraph
  phis : List (Nat × (Nat × Nat))
  newPhi : Bool

/-- The per-variable loop of `ESSADomain::widen`: agreeing variables are
kept; a variable differing for the first time at this site mints a static
phi id plus a transient interned phi; later iterations reuse the static
phi id and re-intern a fresh transient phi. -/
def essaWidenGo {σ V : Type} (ops : ADOps σ V) (uid : Nat) :
    List (Nat × Nat × Nat) → σ → σ → EGraph →
    List (Nat × (Nat × Nat)) → Bool → WidenAcc σ
  | [], selfAd, otherAd, g, phis, newPhi =>
    ⟨[], selfAd, otherAd, g, phis, newPhi⟩
  | (var, sv, ov) :: rest, selfAd, otherAd, g, phis, newPhi =>
    if sv = ov then
      let r := essaWidenGo ops uid rest selfAd otherAd g phis newPhi
      ⟨(var, sv) :: r.vars, r.selfAd, r.otherAd, r.graph, r.phis, r.newPhi⟩
    else
      match mapFind? phis var with
      | some entry =>
        let m := g.makeset
        let selfAd' := ops.assign selfAd m.2 (ops.lookup selfAd sv)
        let otherAd' := ops.assign otherAd m.2 (ops.lookup otherAd ov)
        let ins := m.1.insertRow phiSig [uid, sv, ov] [m.2]
        let phis' := mapInsert var (entry.1, ins.2) phis
        let r := essaWidenGo ops uid rest selfAd' otherAd' ins.1 phis' newPhi
        ⟨(var, entry.1) :: r.vars, r.selfAd, r.otherAd, r.graph, r.phis, r.newPhi⟩
      | none =>
        let ms := g.makeset
        let m := ms.1.makeset
        let selfAd' := ops.assign selfAd m.2 (ops.lookup selfAd sv)
        let otherAd' := ops.assign otherAd m.2 (ops.lookup otherAd ov)
        let ins := m.1.insertRow phiSig [uid, sv, ov] [m.2]
        let phis' := mapInsert var (ms.2, ins.2) phis
        let r := essaWidenGo ops uid rest selfAd' otherAd' ins.1 phis' true
        ⟨(var, ms.2) :: r.vars, r.selfAd, r.otherAd, r.graph, r.phis, r.newPhi⟩

/-- `BTreeMap::remove` on the sorted pair-list representation. -/
def mapRemove {V : Type} (k : Nat) (m : List (Nat × V)) : List (Nat × V) :=
  m.filter (fun p => decide (p.1 ≠ k))

/-- The convergence cleanup of `ESSADomain::widen`: merge every static
phi with its last transient phi in the e-graph and stamp its inner
value. -/
def essaWidenCleanup {σ V : Type} (ops : ADOps σ V) :
    List (Nat × (Nat × Nat)) → σ → EGraph → σ × EGraph
  | [], ad, g => (ad, g)
  | (_, entry) :: rest, ad, g =>
    let ad' := ops.assign ad entry.1 (ops.lookup ad entry.2)
    let g' := (g.merge entry.1 entry.2).1
    essaWidenCleanup ops rest ad' g'

/-- Models `ESSADomain::widen` at site `uid`, threading the shared
static-phi table (site id → variable → (static phi, last transient
phi)). -/
def ESSADomain.widen {σ V : Type} (ops : ADOps σ V) (a b : ESSADomain σ)
    (uid : Nat) (g : EGraph)
    (staticPhis : List (Nat × List (Nat × (Nat × Nat)))) :
    ESSADomain σ × EGraph × List (Nat × List (Nat × (Nat × Nat))) :=
  let sitePhis := (mapFind? staticPhis uid).getD []
  let go := essaWidenGo ops uid (intersectMaps a.varToVal b.varToVal)
    a.ad b.ad g sitePhis false
  let merged := ops.widenOp go.selfAd go.otherAd uid
  if go.newPhi then
    (⟨go.vars, merged⟩, go.graph, mapInsert uid go.phis staticPhis)
  else
    let cl := essaWidenCleanup ops go.phis merged go.graph
    (⟨go.vars, cl.1⟩, cl.2, mapRemove uid staticPhis)

/-- Models `ESSADomain::lookup`: the Rust source indexes
`self.var_to_val[&var]`, which panics for an unbound variable; the panic
is modelled as `none`. -/
def ESSADomain.lookup {σ V : Type} (ops : ADOps σ V) (d : ESSADomain σ)
    (var : Nat) : Option (Nat × V) :=
  (mapFind? d.varToVal var).map (fun cid => (cid, ops.lookup d.ad cid))

/-- Models `ESSADomain::assign`. -/
def ESSADomain.assign {σ V : Type} (ops : ADOps σ V) (d : ESSADomain σ)
    (var : Nat) (v : Nat × V) : ESSADomain σ :=
  ⟨mapInsert var v.1 d.varToVal, ops.assign d.ad v.1 v.2⟩

end ai

/-! ### Key sets of the merge operators (domain.rs, lib.rs, essa.rs) -/

namespace ai

theorem sortedKeys_tail {V : Type} {p : Nat × V} {m : List (Nat × V)}
    (h : SortedKeys (p :: m)) : SortedKeys m :=
  List.Pairwise.of_cons h

theorem mem_keys_cons {V : Type} (k k' : Nat) (v : V) (m : List (Nat × V)) :
    k ∈ ((k', v) :: m).map Prod.fst ↔ k = k' ∨ k ∈ m.map Prod.fst := by
  simp

theorem not_mem_keys_of_lt {V : Type} {k k2 : Nat} {v2 : V}
    {lb : List (Nat × V)} (hs : SortedKeys ((k2, v2) :: lb)) (hk : k < k2) :
    k ∉ ((k2, v2) :: lb).map Prod.fst := by
  intro hmem
  rcases (mem_keys_cons k k2 v2 lb).mp hmem with rfl | h
  · omega
  · obtain ⟨q, hq, hq1⟩ := List.mem_map.mp h
    have := (List.pairwise_cons.mp hs).1 q hq
    omega

theorem intersectMapsF_keys {V1 V2 : Type} :
    ∀ (fuel : Nat) (a : List (Nat × V1)) (b : List (Nat × V2)),
      a.length + b.length ≤ fuel → SortedKeys a → SortedKeys b →
      ∀ k : Nat, (k ∈ (intersectMapsF fuel a b).map Prod.fst ↔
        k ∈ a.map Prod.fst ∧ k ∈ b.map Prod.fst) := by
  intro fuel
  induction fuel with
  | zero =>
    intro a b hlen _ _ k
    have ha : a = [] := List.length_eq_zero.mp (by omega)
    have hb : b = [] := List.length_eq_zero.mp (by omega)
    subst ha; subst hb
    simp [intersectMapsF]
  | succ n ih =>
    intro a b hlen hsa hsb k
    rcases a with _ | ⟨⟨k1, v1⟩, la⟩
    · simp [intersectMapsF]
    rcases b with _ | ⟨⟨k2, v2⟩, lb⟩
    · simp [intersectMapsF]
    by_cases h1 : k1 < k2
    · have hstep : intersectMapsF (n + 1) ((k1, v1) :: la) ((k2, v2) :: lb) =
          intersectMapsF n la ((k2, v2) :: lb) := by
        simp [intersectMapsF, h1]
      rw [hstep, ih la ((k2, v2) :: lb)
        (by simp only [List.length_cons] at hlen ⊢; omega)
        (sortedKeys_tail hsa) hsb k]
      rw [mem_keys_cons k k1 v1 la]
      constructor
      · rintro ⟨hka, hkb⟩
        exact ⟨Or.inr hka, hkb⟩
      · rintro ⟨rfl | hka, hkb⟩
        · exact absurd hkb (not_mem_keys_of_lt hsb h1)
        · exact ⟨hka, hkb⟩
    by_cases h2 : k2 < k1
    · have hstep : intersectMapsF (n + 1) ((k1, v1) :: la) ((k2, v2) :: lb) =
          intersectMapsF n ((k1, v1) :: la) lb := by
        simp [intersectMapsF, h1, h2]
      rw [hstep, ih ((k1, v1) :: la) lb
        (by simp only [List.length_cons] at hlen ⊢; omega)
        hsa (sortedKeys_tail hsb) k]
      rw [mem_keys_cons k k2 v2 lb]
      constructor
      · rintro ⟨hka, hkb⟩
        exact ⟨hka, Or.inr hkb⟩
      · rintro ⟨hka, rfl | hkb⟩
        · exact absurd hka (not_mem_keys_of_lt hsa h2)
        · exact ⟨hka, hkb⟩
    · have hk : k1 = k2 := by omega
      subst hk
      have hstep : intersectMapsF (n + 1) ((k1, v1) :: la) ((k1, v2) :: lb) =
          (k1, v1, v2) :: intersectMapsF n la lb := by
        simp [intersectMapsF, h1, h2]
      rw [hstep]
      rw [show ((k1, v1, v2) :: intersectMapsF n la lb).map Prod.fst =
        k1 :: (intersectMapsF n la lb).map Prod.fst from rfl]
      rw [List.mem_cons, ih la lb
        (by simp only [List.length_cons] at hlen ⊢; omega)
        (sortedKeys_tail hsa) (sortedKeys_tail hsb) k]
      rw [mem_keys_cons k k1 v1 la, mem_keys_cons k k1 v2 lb]
      constructor
      · rintro (rfl | ⟨hka, hkb⟩)
        · exact ⟨Or.inl rfl, Or.inl rfl⟩
        · exact ⟨Or.inr hka, Or.inr hkb⟩
      · rintro ⟨rfl | hka, hkb⟩
        · exact Or.inl rfl
        rcases hkb with rfl | hkb
        · exact Or.inl rfl
        · exact Or.inr ⟨hka, hkb⟩

theorem intersectMaps_keys {V1 V2 : Type} (a : List (Nat × V1))
    (b : List (Nat × V2)) (hsa : SortedKeys a) (hsb : SortedKeys b)
    (k : Nat) : k ∈ (intersectMaps a b).map Prod.fst ↔
      k ∈ a.map Prod.fst ∧ k ∈ b.map Prod.fst :=
  intersectMapsF_keys (a.length + b.length) a b le_rfl hsa hsb k

theorem map_keyed_fst {V1 V2 V3 : Type} (f : Nat × V1 × V2 → V3)
    (l : List (Nat × V1 × V2)) :
    (l.map (fun p => (p.1, f p))).map Prod.fst = l.map Prod.fst := by
  induction l with
  | nil => rfl
  | cons p t ih => simp [ih]

theorem essaJoinGo_keys {σ V : Type} (ops : ADOps σ V) (uid : Nat) :
    ∀ (l : List (Nat × Nat × Nat)) (sa oa : σ) (g : EGraph),
      (essaJoinGo ops uid l sa oa g).1.map Prod.fst = l.map Prod.fst := by
  intro l
  induction l with
  | nil => intro sa oa g; rfl
  | cons p rest ih =>
    intro sa oa g
    obtain ⟨var, sv, ov⟩ := p
    by_cases h : sv = ov
    · simp [essaJoinGo, h, ih]
    · simp [essaJoinGo, h, ih]

theorem essaWidenGo_keys {σ V : Type} (ops : ADOps σ V) (uid : Nat) :
    ∀ (l : List (Nat × Nat × Nat)) (sa oa : σ) (g : EGraph)
      (phis : List (Nat × (Nat × Nat))) (np : Bool),
      (essaWidenGo ops uid l sa oa g phis np).vars.map Prod.fst =
        l.map Prod.fst := by
  intro l
  induction l with
  | nil => intro sa oa g phis np; rfl
  | cons p rest ih =>
    intro sa oa g phis np
    obtain ⟨var, sv, ov⟩ := p
    by_cases h : sv = ov
    · simp [essaWidenGo, h, ih]
    · cases hf : mapFind? phis var with
      | some entry => simp [essaWidenGo, h, hf, ih]
      | none => simp [essaWidenGo, h, hf, ih]

theorem essaWiden_varToVal {σ V : Type} (ops : ADOps σ V)
    (a b : ESSADomain σ) (uid : Nat) (g : EGraph)
    (sp : List (Nat × List (Nat × (Nat × Nat)))) :
    (ESSADomain.widen ops a b uid g sp).1.varToVal =
      (essaWidenGo ops uid (intersectMaps a.varToVal b.varToVal)
        a.ad b.ad g ((mapFind? sp uid).getD []) false).vars := by
  simp only [ESSADomain.widen]
  split <;> rfl

end ai

namespace ai

theorem map_keyed_fst2 {V1 V2 V3 : Type} (g : V1 → V2 → V3)
    (l : List (Nat × V1 × V2)) :
    (l.map (fun p => (p.1, g p.2.1 p.2.2))).map Prod.fst = l.map Prod.fst :=
  map_keyed_fst (fun p => g p.2.1 p.2.2) l

end ai

/-- Claim C4: for both the `LatticeDomain` map domain (join and widen)
and the `ESSADomain` wrapper (join and widen), the key set of the result
state is exactly the intersection of the operands' key sets: a variable
is bound in the result iff it is bound in both operands (the operand
maps being sorted is the `BTreeMap` representation invariant). -/
theorem join_widen_key_intersection {V σ W : Type}
    (joinV widenV : V → V → V) (ops : ai.ADOps σ W)
    (a b : ai.LatticeDomain V) (ea eb : ai.ESSADomain σ)
    (uid : Nat) (g : EGraph) (sp : List (Nat × List (Nat × (Nat × Nat))))
    (k : Nat)
    (hA : ai.SortedKeys a.varToVal) (hB : ai.SortedKeys b.varToVal)
    (hEA : ai.SortedKeys ea.varToVal) (hEB : ai.SortedKeys eb.varToVal) :
    (k ∈ (ai.LatticeDomain.join joinV a b).varToVal.map Prod.fst ↔
      k ∈ a.varToVal.map Prod.fst ∧ k ∈ b.varToVal.map Prod.fst) ∧
    (k ∈ (ai.LatticeDomain.widen widenV a b).varToVal.map Prod.fst ↔
      k ∈ a.varToVal.map Prod.fst ∧ k ∈ b.varToVal.map Prod.fst) ∧
    (k ∈ (ai.ESSADomain.join ops ea eb uid g).1.varToVal.map Prod.fst ↔
      k ∈ ea.varToVal.map Prod.fst ∧ k ∈ eb.varToVal.map Prod.fst) ∧
    (k ∈ (ai.ESSADomain.widen ops ea eb uid g sp).1.varToVal.map Prod.fst ↔
      k ∈ ea.varToVal.map Prod.fst ∧ k ∈ eb.varToVal.map Prod.fst) := by
  refine ⟨?_, ?_, ?_, ?_⟩
  · rw [show (ai.LatticeDomain.join joinV a b).varToVal =
      (ai.intersectMaps a.varToVal b.varToVal).map
        (fun p => (p.1, joinV p.2.1 p.2.2)) from rfl]
    rw [ai.map_keyed_fst2 joinV]
    exact ai.intersectMaps_keys _ _ hA hB k
  · rw [show (ai.LatticeDomain.widen widenV a b).varToVal =
      (ai.intersectMaps a.varToVal b.varToVal).map
        (fun p => (p.1, widenV p.2.1 p.2.2)) from rfl]
    rw [ai.map_keyed_fst2 widenV]
    exact ai.intersectMaps_keys _ _ hA hB k
  · rw [show (ai.ESSADomain.join ops ea eb uid g).1.varToVal =
      (ai.essaJoinGo ops uid (ai.intersectMaps ea.varToVal eb.varToVal)
        ea.ad eb.ad g).1 from rfl]
    rw [ai.essaJoinGo_keys]
    exact ai.intersectMaps_keys _ _ hEA hEB k
  · rw [ai.essaWiden_varToVal, ai.essaWidenGo_keys]
    exact ai.intersectMaps_keys _ _ hEA hEB k

/-- A concrete interval map state binding variables 0 and 1. -/
def ldA : ai.LatticeDomain ai.Interval := ⟨[(0, ⟨0, 5⟩), (1, ⟨1, 1⟩)]⟩

/-- A concrete interval map state binding variables 1 and 2. -/
def ldB : ai.LatticeDomain ai.Interval := ⟨[(1, ⟨2, 3⟩), (2, ⟨0, 0⟩)]⟩

/-- A concrete ESSA state binding variables 0 and 1. -/
def esA : ai.ESSADomain Unit := ⟨[(0, 0), (1, 1)], ()⟩

/-- A concrete ESSA state binding variable 1 only. -/
def esB : ai.ESSADomain Unit := ⟨[(1, 2)], ()⟩

/-- An e-graph holding an empty phi table and three singleton classes. -/
def egPhi : EGraph := ⟨[(ai.phiSig, [])], UnionFind.newAllNotEquals 3⟩

theorem join_widen_key_intersection_witness :
    ai.SortedKeys ldA.varToVal ∧ ai.SortedKeys ldB.varToVal ∧
    ai.SortedKeys esA.varToVal ∧ ai.SortedKeys esB.varToVal ∧
    ((1 ∈ (ai.LatticeDomain.join ai.Interval.join ldA ldB).varToVal.map
        Prod.fst ↔
      1 ∈ ldA.varToVal.map Prod.fst ∧ 1 ∈ ldB.varToVal.map Prod.fst) ∧
    (1 ∈ (ai.LatticeDomain.widen ai.Interval.widen ldA ldB).varToVal.map
        Prod.fst ↔
      1 ∈ ldA.varToVal.map Prod.fst ∧ 1 ∈ ldB.varToVal.map Prod.fst) ∧
    (1 ∈ (ai.ESSADomain.join ai.unitADOps esA esB 7 egPhi).1.varToVal.map
        Prod.fst ↔
      1 ∈ esA.varToVal.map Prod.fst ∧ 1 ∈ esB.varToVal.map Prod.fst) ∧
    (1 ∈ (ai.ESSADomain.widen ai.unitADOps esA esB 7 egPhi
        []).1.varToVal.map Prod.fst ↔
      1 ∈ esA.varToVal.map Prod.fst ∧ 1 ∈ esB.varToVal.map Prod.fst)) :=
  ⟨by unfold ai.SortedKeys; decide, by unfold ai.SortedKeys; decide,
   by unfold ai.SortedKeys; decide, by unfold ai.SortedKeys; decide,
   join_widen_key_intersection ai.Interval.join ai.Interval.widen
     ai.unitADOps ldA ldB esA esB 7 egPhi [] 1
     (by unfold ai.SortedKeys; decide) (by unfold ai.SortedKeys; decide)
     (by unfold ai.SortedKeys; decide) (by unfold ai.SortedKeys; decide)⟩

/-- Claim C7 counterexample: `ESSADomain::lookup` of a variable that is
not bound in `var_to_val` does not return a top value: the source
indexes `self.var_to_val[&var]`, which panics (modelled as `none`). -/
theorem essa_lookup_unbound_counterexample :
    ai.ESSADomain.lookup ai.unitADOps ⟨[], ()⟩ 0 = none := rfl

/-- Claim C7 (amended): `LatticeDomain::lookup` of an unbound variable
returns `top` and does not fault, but `ESSADomain::lookup` of an unbound
variable panics on the `var_to_val[&var]` index (modelled as `none`)
rather than returning top. -/
theorem lookup_unbound {V σ W : Type} (top : V) (ops : ai.ADOps σ W)
    (d : ai.LatticeDomain V) (e : ai.ESSADomain σ) (k : Nat)
    (hd : ai.mapFind? d.varToVal k = none)
    (he : ai.mapFind? e.varToVal k = none) :
    ai.LatticeDomain.lookup top d k = top ∧
    ai.ESSADomain.lookup ops e k = none := by
  constructor
  · unfold ai.LatticeDomain.lookup
    rw [hd]
    rfl
  · unfold ai.ESSADomain.lookup
    rw [he]
    rfl

theorem lookup_unbound_witness :
    ai.mapFind? ldB.varToVal 0 = none ∧
    ai.mapFind? esB.varToVal 0 = none ∧
    (ai.LatticeDomain.lookup ai.Interval.top ldB 0 = ai.Interval.top ∧
      ai.ESSADomain.lookup ai.unitADOps esB 0 = none) :=
  ⟨rfl, rfl, lookup_unbound ai.Interval.top ai.unitADOps ldB esB 0 rfl rfl⟩

/-! ### The imp AST (src/imp/src/ast.rs) and the interval abstract
interpreter (src/ai/src/imp.rs), with interned `Symbol`s as `Nat` and
`BlockAST` as its statement list. -/

